import Mathlib

/-!
Verification development for the `duplicates_removal` repository.

The repository contains two command-line utilities:
* `duplicates_remove_v6.py` — detects files whose names differ only by
  duplicate markers such as `" (1)"`, `".copy"`, `" - copy"`, groups them by
  a normalized key and keeps the oldest file of each group;
* `clean_empty_dir.py` / `clean_empty_dir_deepseek.py` — remove empty
  directories bottom-up.

The development below is a shallow embedding of the decision logic of both
tools.  Strings are modelled as `List Char`; Python string primitives
(`str.lower`, `str.strip`, `str.rfind`, `pathlib.PurePath.stem/suffix`) are
reproduced on that representation.  The single regular expression actually
used by the tool (the default pattern `\s*\(\d+\)`) is embedded as a concrete
leftmost-match searcher; where functions of the source are parameterized by a
compiled pattern, the embedding is parameterized by an abstract search
function returning the span of the first match, as `re.Pattern.search` does.
-/

namespace DupRemoval

/-! ### Python character classes and string helpers -/

/-- ASCII whitespace as recognised by `str.strip()` and by `\s` of the `re`
module on ASCII text: space, tab, newline, carriage return, vertical tab,
form feed. -/
def pySpace (c : Char) : Bool :=
  c = ' ' || c = '\t' || c = '\n' || c = '\r' || c.toNat = 11 || c.toNat = 12

/-- ASCII decimal digit, the `\d` class on ASCII text. -/
def pyDigit (c : Char) : Bool :=
  ('0').toNat ≤ c.toNat && c.toNat ≤ ('9').toNat

/-- Python `str.strip()`: remove whitespace from both ends. -/
def pyStrip (l : List Char) : List Char :=
  ((l.dropWhile pySpace).reverse.dropWhile pySpace).reverse

/-- Python `str.lower()` on ASCII text, applied characterwise. -/
def pyLower (l : List Char) : List Char :=
  l.map Char.toLower

/-- The needle `needle` occurs in `hay` starting at index `i` (all of it). -/
def occursAt (needle hay : List Char) (i : Nat) : Bool :=
  (hay.drop i).take needle.length = needle

/-- Index of the last occurrence of `needle` in `hay`, if any: the largest
start index at which the needle fully occurs.  This is Python
`hay.rfind(needle)` restricted to the found case. -/
def lastOcc (needle hay : List Char) : Option Nat :=
  (((List.range (hay.length + 1)).filter (occursAt needle hay)).getLast?)

/-- Python `str.rfind`: the index of the last occurrence, or `-1`. -/
def rfindI (needle hay : List Char) : Int :=
  match lastOcc needle hay with
  | some i => (i : Int)
  | none => -1

/-! ### `pathlib.PurePath` stem/suffix split

`PurePath.suffix` is `name[i:]` where `i = name.rfind('.')`, provided
`0 < i < len(name) - 1`, and empty otherwise; `stem` is the complementary
part.  (Only the final path component reaches this code, so `name` is the
whole filename.) -/

/-- Index of the last dot of a filename, as used by `PurePath.stem`. -/
def lastDot (name : List Char) : Option Nat :=
  lastOcc ['.'] name

/-- Whether the last-dot index yields a proper stem/suffix split. -/
def splitsAt (name : List Char) : Option Nat :=
  match lastDot name with
  | some i => if 0 < i ∧ i + 1 < name.length then some i else none
  | none => none

/-- `pathlib.PurePath(name).stem`. -/
def pathStem (name : List Char) : List Char :=
  match splitsAt name with
  | some i => name.take i
  | none => name

/-- `pathlib.PurePath(name).suffix`. -/
def pathSuffix (name : List Char) : List Char :=
  match splitsAt name with
  | some i => name.drop i
  | none => []

/-! ### The default duplicate-marker pattern `\s*\(\d+\)`

`re.search` returns the leftmost match; at a given start position the match
of `\s*\(\d+\)` is forced: `\s*` must consume the whole whitespace run in
front of a literal `(` (backtracking cannot help, since a shorter run leaves
a whitespace character where `(` is required), `\d+` must consume the whole
digit run, and `)` must follow it. -/

/-- Length of the match of `\s*\(\d+\)` anchored at the front of `l`,
if there is one. -/
def frontMatchLen (l : List Char) : Option Nat :=
  let ws := (l.takeWhile pySpace).length
  match l.drop ws with
  | c :: rest =>
    if c = '(' then
      let d := (rest.takeWhile pyDigit).length
      if 0 < d ∧ rest[d]? = some ')' then some (ws + 1 + d + 1) else none
    else none
  | [] => none

/-- `re.compile(r'\s*\(\d+\)').search(l)`, returning the span of the
leftmost match as `re.Match.span()` does. -/
def defaultSearch (l : List Char) : Option (Nat × Nat) :=
  (List.range (l.length + 1)).findSome? fun i =>
    (frontMatchLen (l.drop i)).map fun m => (i, i + m)

/-- Well-formedness of a compiled pattern's search function: a reported span
`(a, b)` always satisfies `0 ≤ a ≤ b ≤ len`, as `re.Match.span()` does. -/
def SearchOK (search : List Char → Option (Nat × Nat)) : Prop :=
  ∀ l a b, search l = some (a, b) → a ≤ b ∧ b ≤ l.length

/-! ### `clean_filename` (duplicates_remove_v6.py, lines 22-79)

```python
while True:
    original_cleaned_stem = cleaned_stem
    match = pattern_compiled.search(cleaned_stem)
    if match:
        start, end = match.span()
        cleaned_stem = cleaned_stem[:start] + cleaned_stem[end:]
        cleaned_stem = cleaned_stem.strip()
    if detect_copy:
        lower_stem = cleaned_stem.lower()
        dot_copy_index = lower_stem.rfind(".copy")
        space_copy_index = lower_stem.rfind(" - copy")
        if space_copy_index > dot_copy_index:
            cleaned_stem = cleaned_stem[:space_copy_index].strip()
        elif dot_copy_index != -1:
            cleaned_stem = cleaned_stem[:dot_copy_index].strip()
    if cleaned_stem == original_cleaned_stem:
        break
return cleaned_stem + suffix
```
-/

/-- The literal `".copy"` needle. -/
def dotCopy : List Char := ['.', 'c', 'o', 'p', 'y']

/-- The literal `" - copy"` needle. -/
def spaceCopy : List Char := [' ', '-', ' ', 'c', 'o', 'p', 'y']

/-- One pass of the regex sub-step of `clean_filename`: remove the span of
the first match (if any) and strip. -/
def regexStep (search : List Char → Option (Nat × Nat)) (stem : List Char) :
    List Char :=
  match search stem with
  | some (a, b) => pyStrip (stem.take a ++ stem.drop b)
  | none => stem

/-- One pass of the copy-literal sub-step of `clean_filename` (lines 48-61):
case-insensitively find the last occurrences of `".copy"` and `" - copy"`;
truncate at the `" - copy"` one if it is further right, else at the
`".copy"` one if present. -/
def copyStep (stem : List Char) : List Char :=
  let lower := pyLower stem
  let dotIdx := rfindI dotCopy lower
  let spaceIdx := rfindI spaceCopy lower
  if spaceIdx > dotIdx then pyStrip (stem.take spaceIdx.toNat)
  else if dotIdx ≠ -1 then pyStrip (stem.take dotIdx.toNat)
  else stem

/-- The body of the `while True` loop of `clean_filename`. -/
def cleanBody (search : List Char → Option (Nat × Nat)) (detect : Bool)
    (stem : List Char) : List Char :=
  let s1 := regexStep search stem
  if detect then copyStep s1 else s1

/-- The `while True` loop, with explicit fuel.  The loop exits as soon as an
iteration makes no change; `cleanLoop_converges` below shows that fuel
`stem.length + 1` always suffices, so this is a faithful rendering of the
unbounded Python loop. -/
def cleanLoop (search : List Char → Option (Nat × Nat)) (detect : Bool) :
    Nat → List Char → List Char
  | 0, stem => stem
  | fuel + 1, stem =>
    let t := cleanBody search detect stem
    if t = stem then stem else cleanLoop search detect fuel t

/-- `clean_filename(filename, pattern_compiled, detect_copy)`: split into
stem and suffix, iterate the marker-removal loop on the stem to a fixpoint,
and reattach the suffix. -/
def clean_filename (search : List Char → Option (Nat × Nat)) (detect : Bool)
    (name : List Char) : List Char :=
  let stem := pathStem name
  let suffix := pathSuffix name
  cleanLoop search detect (stem.length + 1) stem ++ suffix

/-- The copy-literal sub-step as the specification words it: locate the last
occurrence of each needle; with both present remove the one at the later
string index; with one present remove that one; with neither do nothing. -/
def copyStepSpec (stem : List Char) : List Char :=
  let lower := pyLower stem
  match lastOcc dotCopy lower, lastOcc spaceCopy lower with
  | none, none => stem
  | some i, none => pyStrip (stem.take i)
  | none, some j => pyStrip (stem.take j)
  | some i, some j =>
    if i < j then pyStrip (stem.take j) else pyStrip (stem.take i)

/-! ### The duplicate grouper and survivor selector
(`find_and_remove_duplicates`, duplicates_remove_v6.py lines 81-369)

A discovered file is its parent directory path, its final name component and
the result of `stat()` — `none` when the metadata read raises
(`FileNotFoundError`, `PermissionError`, ...).  Timestamps are `st_ctime`
values, sizes `st_size`; the directory walk provides the files in discovery
order. -/

/-- The result of a successful `os.stat` call, restricted to the fields the
tool reads. -/
structure FileStat where
  st_ctime : Int
  st_size : Nat
deriving DecidableEq, Repr

/-- A file as produced by `Path.iterdir()` / `Path.rglob('*')`. -/
structure FSFile where
  parent : List Char
  name : List Char
  stat : Option FileStat
deriving DecidableEq, Repr

instance : Inhabited FSFile := ⟨⟨[], [], none⟩⟩

/-- The full path `parent / name`. -/
def pathOf (f : FSFile) : List Char :=
  f.parent ++ '/' :: f.name

/-- The creation timestamp a file's stat reports (default for a failed
stat; only ever read on files whose stat succeeded). -/
def ctimeD (f : FSFile) : Int :=
  match f.stat with
  | some st => st.st_ctime
  | none => 0

/-- `group_key = str(file_path.parent / cleaned_name).lower()`
(line 164). -/
def groupKey (search : List Char → Option (Nat × Nat)) (detect : Bool)
    (f : FSFile) : List Char :=
  pyLower (f.parent ++ '/' :: clean_filename search detect f.name)

/-- Append a file under its key in an insertion-ordered association list,
as inserting into the `file_groups` dict (lines 166-169) does: a new key
goes to the end, an existing key's list is appended to. -/
def addFile (k : List Char) (f : FSFile) :
    List (List Char × List FSFile) → List (List Char × List FSFile)
  | [] => [(k, [f])]
  | (k1, fs) :: rest =>
    if k1 = k then (k1, fs ++ [f]) :: rest else (k1, fs) :: addFile k f rest

/-- `file_groups` after the grouping loop (lines 152-173). -/
def buildGroups (search : List Char → Option (Nat × Nat)) (detect : Bool)
    (files : List FSFile) : List (List Char × List FSFile) :=
  files.foldl (fun gs f => addFile (groupKey search detect f) f gs) []

/-- `files_with_stat` for one group (lines 183-195): pair each member with
its stat, dropping members whose stat read fails. -/
def statGroup (fs : List FSFile) : List (FSFile × FileStat) :=
  fs.filterMap fun f => f.stat.map fun st => (f, st)

/-- A stable insertion sort: `insertOrdered` places `x` before the first
element `y` with `r x y`, hence after every earlier element it does not
precede.  With `r a b = (key a ≤ key b)` this is the semantics of Python
`list.sort(key=...)`: ascending and stable. -/
def insertOrdered (r : α → α → Bool) (x : α) : List α → List α
  | [] => [x]
  | y :: l => if r x y then x :: y :: l else y :: insertOrdered r x l

/-- Stable sort by repeated ordered insertion (Python `list.sort`). -/
def stableSort (r : α → α → Bool) : List α → List α
  | [] => []
  | x :: l => insertOrdered r x (stableSort r l)

/-- Sort key of line 199: `item[1].st_ctime`. -/
def ctimeLe (a b : FSFile × FileStat) : Bool :=
  a.2.st_ctime ≤ b.2.st_ctime

/-- `groups_with_duplicates` (lines 177-212): keep groups of more than one
file, drop members whose stat fails, re-check the size, and sort the
survivors by creation time (stable). -/
def processGroups (gs : List (List Char × List FSFile)) :
    List (List Char × List FSFile) :=
  gs.filterMap fun kg =>
    if kg.2.length > 1 then
      if (statGroup kg.2).length > 1 then
        some (kg.1, (stableSort ctimeLe (statGroup kg.2)).map Prod.fst)
      else none
    else none

/-- `files_to_remove` before the preview sort (lines 214-278): for each
group everything except the first (oldest) member, paired with the size a
fresh `stat()` reports; a member whose fresh stat fails is skipped. -/
def rawRemoveList (gs : List (List Char × List FSFile)) :
    List (FSFile × Nat) :=
  gs.flatMap fun kg =>
    (kg.2.drop 1).filterMap fun f => f.stat.map fun st => (f, st.st_size)

/-- Lexicographic `≤` on code points, Python string comparison. -/
def lexLe : List Char → List Char → Bool
  | [], _ => true
  | _ :: _, [] => false
  | a :: as, b :: bs => if a = b then lexLe as bs else decide (a.toNat < b.toNat)

/-- Preview sort of line 290: by `str(path).lower()`, stable ascending. -/
def previewLe (a b : FSFile × Nat) : Bool :=
  lexLe (pyLower (pathOf a.1)) (pyLower (pathOf b.1))

/-- The finalized deletion-candidate list of the run. -/
def removeList (search : List Char → Option (Nat × Nat)) (detect : Bool)
    (files : List FSFile) : List (FSFile × Nat) :=
  stableSort previewLe (rawRemoveList (processGroups (buildGroups search detect files)))

/-- The paths of the deletion candidates. -/
def removalPaths (search : List Char → Option (Nat × Nat)) (detect : Bool)
    (files : List FSFile) : List (List Char) :=
  (removeList search detect files).map fun fz => pathOf fz.1

/-- The confirmation test of lines 311-320: the answer line (`none` for
end-of-input), stripped and lowered, must equal `yes`. -/
def confirmedYes (answer : Option (List Char)) : Bool :=
  match answer with
  | none => false
  | some a => pyLower (pyStrip a) = ['y', 'e', 's']

/-- The deletion loop (lines 330-367): each candidate still present is
unlinked; the live filesystem is the list of files still existing. -/
def deleteFiles (fs : List FSFile) (rem : List (FSFile × Nat)) :
    List FSFile × Nat :=
  rem.foldl
    (fun cur fz =>
      if cur.1.any (fun g => pathOf g = pathOf fz.1) then
        (cur.1.filter (fun g => ¬ pathOf g = pathOf fz.1), cur.2 + 1)
      else cur)
    (fs, 0)

/-- `find_and_remove_duplicates` from the summary on: returns the resulting
filesystem contents and the number of files deleted.  With no candidates or
in dry-run mode the function returns before deleting (lines 282-308); in
live mode without auto-confirm it returns unless the answer is a literal
`yes` (lines 311-320). -/
def runDupTool (files : List FSFile)
    (search : List Char → Option (Nat × Nat)) (detect : Bool)
    (dryRun autoConfirm : Bool) (answer : Option (List Char)) :
    List FSFile × Nat :=
  let rem := removeList search detect files
  if rem = [] then (files, 0)
  else if dryRun then (files, 0)
  else if ¬ autoConfirm ∧ ¬ confirmedYes answer then (files, 0)
  else deleteFiles files rem

/-! ### Concrete fixtures used by the witnesses below -/

/-- A file `d/a (1).txt`, created at time 5, 10 bytes. -/
def wA : FSFile := ⟨"d".data, "a (1).txt".data, some ⟨5, 10⟩⟩

/-- A file `d/a (2).txt`, created at time 3, 20 bytes. -/
def wB : FSFile := ⟨"d".data, "a (2).txt".data, some ⟨3, 20⟩⟩

/-- A file `d/a (2).txt` whose metadata read fails. -/
def wBad : FSFile := ⟨"d".data, "a (2).txt".data, none⟩

/-- The grouping key shared by the fixtures under the default pattern. -/
def wKey : List Char := "d/a.txt".data

/-! ### The empty-directory pruner
(`delete_empty_dirs_recursive`, clean_empty_dir.py lines 10-52, and
`delete_empty_recursive`, clean_empty_dir_deepseek.py lines 14-99)

A directory tree carries the number of plain files in each directory and the
list of subdirectories.  `os.walk(root, topdown=False)` is itself recursive:
it lists a directory, recursively walks each subdirectory, then yields the
directory — so every directory is visited after all of its descendants and
the root is yielded last.  The loop body re-lists the directory live
(`current_dir.iterdir()`), so children removed earlier in the same pass are
no longer seen; composing the walk with the body therefore gives the
recursion below.  Removal (`rmdir` or `send2trash`) deletes the node; in
dry-run mode the directory is only counted.  (The extra post-loop root check
of `delete_empty_recursive` re-tests a root the loop already handled — the
root was either removed, and no longer exists, or is still non-empty — so it
never fires and is not modelled separately.) -/

inductive FSTree where
  | node : Nat → List FSTree → FSTree

/-- Number of plain files directly in the directory. -/
def FSTree.files : FSTree → Nat
  | .node f _ => f

/-- The subdirectories. -/
def FSTree.children : FSTree → List FSTree
  | .node _ cs => cs

mutual

/-- One bottom-up pass of the pruner over a directory: children first, then
the live emptiness check on the directory itself.  Returns the directory's
remaining contents (`none` when it was removed) and the count of directories
deleted (dry run: that would be deleted). -/
def pruneDir (dry : Bool) : FSTree → Option FSTree × Nat
  | .node f cs =>
    let rs := pruneKids dry cs
    let remaining := rs.filterMap Prod.fst
    let cnt := (rs.map Prod.snd).sum
    if f == 0 && remaining.isEmpty then
      if dry then (some (.node f cs), cnt + 1) else (none, cnt + 1)
    else (some (.node f remaining), cnt)
termination_by t => sizeOf t
decreasing_by simp [FSTree.node.sizeOf_spec]

/-- The pruner pass over a list of sibling directories, in listing order. -/
def pruneKids (dry : Bool) : List FSTree → List (Option FSTree × Nat)
  | [] => []
  | c :: cs => pruneDir dry c :: pruneKids dry cs
termination_by cs => sizeOf cs
decreasing_by all_goals (simp <;> omega)

end

mutual

/-- The order in which the pass visits directories: the visit list of
`os.walk(root, topdown=False)`, each directory represented by the subtree
originally rooted there.  Children are fully listed before their parent and
the root comes last. -/
def visitOrder : FSTree → List FSTree
  | .node f cs => visitKids cs ++ [.node f cs]
termination_by t => sizeOf t
decreasing_by simp [FSTree.node.sizeOf_spec]

/-- Visit order of a list of sibling subtrees. -/
def visitKids : List FSTree → List FSTree
  | [] => []
  | c :: cs => visitOrder c ++ visitKids cs
termination_by cs => sizeOf cs
decreasing_by all_goals (simp <;> omega)

end

/-- `click.confirm(..., default=False)` over a stream of answer lines:
`y`/`yes` confirm, `n`/`no` decline, an empty line takes the default
(decline), anything else re-prompts; end of input raises `Abort` (`none`).
Lines are lowered and stripped as click does. -/
def clickConfirm : List (List Char) → Option Bool
  | [] => none
  | a :: rest =>
    let v := pyStrip (pyLower a)
    if v = ['y'] ∨ v = ['y', 'e', 's'] then some true
    else if v = ['n'] ∨ v = ['n', 'o'] ∨ v = [] then some false
    else clickConfirm rest

/-- The `cli` of clean_empty_dir.py (lines 72-114): in dry-run mode no
confirmation is asked and the pass runs without deleting; in live mode with
`--yes` the pass runs; otherwise `click.confirm(default=False, abort=True)`
aborts the program — leaving the tree untouched — unless it returns `true`.
Returns the remaining tree (`none` when the root itself was removed) and the
deleted count. -/
def runDirCli (t : FSTree) (dryRun yesFlag : Bool)
    (answers : List (List Char)) : Option FSTree × Nat :=
  if dryRun then ((pruneDir true t).1, (pruneDir true t).2)
  else if yesFlag then pruneDir false t
  else
    match clickConfirm answers with
    | some true => pruneDir false t
    | _ => (some t, 0)

/-! ### Basic facts about the string helpers -/

theorem pyStrip_sublist (l : List Char) : List.Sublist (pyStrip l) l := by
  have h1 : List.Sublist (l.dropWhile pySpace) l := List.dropWhile_sublist pySpace
  have h2 : List.Sublist ((l.dropWhile pySpace).reverse.dropWhile pySpace)
      (l.dropWhile pySpace).reverse := List.dropWhile_sublist pySpace
  have h3 := h2.reverse
  rw [List.reverse_reverse] at h3
  exact h3.trans h1

theorem pyStrip_length_le (l : List Char) : (pyStrip l).length ≤ l.length :=
  (pyStrip_sublist l).length_le

theorem pyStrip_eq_or_lt (l : List Char) :
    pyStrip l = l ∨ (pyStrip l).length < l.length := by
  rcases Nat.lt_or_ge (pyStrip l).length l.length with h | h
  · exact Or.inr h
  · exact Or.inl ((pyStrip_sublist l).eq_of_length (Nat.le_antisymm (pyStrip_length_le l) h))

theorem pyLower_length (l : List Char) : (pyLower l).length = l.length := by
  simp [pyLower]

theorem occursAt_add_le {needle hay : List Char} {i : Nat}
    (hn : 0 < needle.length) (h : occursAt needle hay i = true) :
    i + needle.length ≤ hay.length := by
  unfold occursAt at h
  have hlen := congrArg List.length (of_decide_eq_true h)
  simp [List.length_take, List.length_drop] at hlen
  omega

theorem getLastSomeMem {α : Type} {l : List α} {a : α}
    (h : l.getLast? = some a) : a ∈ l := by
  have hmem : a ∈ l.getLast? := by rw [h]; rfl
  obtain ⟨hne, rfl⟩ := List.mem_getLast?_eq_getLast hmem
  exact List.getLast_mem hne

theorem getLastOfPairwiseMax {l : List Nat} (hp : l.Pairwise (· < ·)) :
    ∀ {i : Nat}, l.getLast? = some i → ∀ j ∈ l, j ≤ i := by
  induction l with
  | nil => intro i h; simp at h
  | cons x xs ih =>
    intro i h j hj
    cases xs with
    | nil =>
      simp [List.getLast?] at h
      rcases List.mem_singleton.1 hj with rfl
      omega
    | cons y ys =>
      rw [List.getLast?_cons_cons] at h
      have hp2 := List.pairwise_cons.1 hp
      rcases List.mem_cons.1 hj with rfl | hj2
      · exact Nat.le_of_lt (hp2.1 i (getLastSomeMem h))
      · exact ih hp2.2 h j hj2

theorem lastOcc_occursAt {needle hay : List Char} {i : Nat}
    (h : lastOcc needle hay = some i) : occursAt needle hay i = true := by
  unfold lastOcc at h
  exact List.of_mem_filter (getLastSomeMem h)

theorem lastOcc_max {needle hay : List Char} {i : Nat}
    (hn : 0 < needle.length) (h : lastOcc needle hay = some i) :
    ∀ j, occursAt needle hay j = true → j ≤ i := by
  intro j hj
  unfold lastOcc at h
  have hpw : ((List.range (hay.length + 1)).filter (occursAt needle hay)).Pairwise (· < ·) :=
    (List.pairwise_lt_range _).filter _
  refine getLastOfPairwiseMax hpw h j ?_
  refine List.mem_filter.2 ⟨List.mem_range.2 ?_, hj⟩
  have := occursAt_add_le hn hj
  omega

theorem lastOcc_none_iff {needle hay : List Char} :
    lastOcc needle hay = none ↔
      ∀ j, j < hay.length + 1 → occursAt needle hay j = false := by
  unfold lastOcc
  rw [List.getLast?_eq_none_iff, List.filter_eq_nil_iff]
  constructor
  · intro h j hj
    by_contra hocc
    exact h j (List.mem_range.2 hj) (by simpa using hocc)
  · intro h j hj hocc
    have := h j (List.mem_range.1 hj)
    simp [this] at hocc

theorem lastOcc_eq_some {needle hay : List Char} {i : Nat}
    (hn : 0 < needle.length) (hocc : occursAt needle hay i = true)
    (hmax : ∀ j, occursAt needle hay j = true → j ≤ i) :
    lastOcc needle hay = some i := by
  have hne : lastOcc needle hay ≠ none := by
    intro h
    have := (lastOcc_none_iff.1 h) i (by have := occursAt_add_le hn hocc; omega)
    simp [this] at hocc
  rcases Option.ne_none_iff_exists.1 hne with ⟨i0, h0⟩
  have h0' := h0.symm
  have hle : i ≤ i0 := lastOcc_max hn h0' i hocc
  have hge : i0 ≤ i := hmax i0 (lastOcc_occursAt h0')
  rw [h0']
  exact congrArg some (Nat.le_antisymm hge hle)

/-! ### The default pattern searcher is a well-formed search function -/

theorem frontMatchLen_bounds {l : List Char} {m : Nat}
    (h : frontMatchLen l = some m) : 3 ≤ m ∧ m ≤ l.length := by
  simp only [frontMatchLen] at h
  split at h
  next c rest hdrop =>
    split at h
    next hc =>
      split at h
      next hcond =>
        have hm := Option.some.inj h
        have hdlt : (rest.takeWhile pyDigit).length < rest.length :=
          (List.getElem?_eq_some_iff.1 hcond.2).1
        have h2 := congrArg List.length hdrop
        simp only [List.length_drop, List.length_cons] at h2
        omega
      next hcond => simp at h
    next hc => simp at h
  next hdrop => simp at h

theorem searchOK_default : SearchOK defaultSearch := by
  intro l a b h
  unfold defaultSearch at h
  obtain ⟨i, hi, hfi⟩ := List.exists_of_findSome?_eq_some h
  rcases hm : frontMatchLen (l.drop i) with _ | m <;> rw [hm] at hfi
  · simp at hfi
  · simp only [Option.map_some', Option.some.injEq, Prod.mk.injEq] at hfi
    obtain ⟨ha, hb⟩ := hfi
    have hbd := frontMatchLen_bounds hm
    have hdl : (l.drop i).length = l.length - i := by simp
    omega

theorem defaultSearch_eq_none_iff {l : List Char} :
    defaultSearch l = none ↔
      ∀ i, i ≤ l.length → frontMatchLen (l.drop i) = none := by
  unfold defaultSearch
  rw [List.findSome?_eq_none_iff]
  constructor
  · intro h i hi
    have := h i (List.mem_range.2 (by omega))
    rcases hm : frontMatchLen (l.drop i) with _ | m
    · rfl
    · rw [hm] at this; simp at this
  · intro h i hi
    rw [h i (by have := List.mem_range.1 hi; omega)]
    rfl

/-! ### Each loop iteration shrinks the stem or leaves it unchanged -/

theorem regexStep_length_le {search : List Char → Option (Nat × Nat)}
    (hOK : SearchOK search) (s : List Char) :
    (regexStep search s).length ≤ s.length := by
  unfold regexStep
  split
  next a b hs =>
    obtain ⟨hab, hbl⟩ := hOK s a b hs
    calc (pyStrip (s.take a ++ s.drop b)).length
        ≤ (s.take a ++ s.drop b).length := pyStrip_length_le _
      _ ≤ s.length := by
        simp only [List.length_append, List.length_take, List.length_drop]
        omega
  next => exact Nat.le_refl _

theorem regexStep_eq_or_lt {search : List Char → Option (Nat × Nat)}
    (hOK : SearchOK search) (s : List Char) :
    regexStep search s = s ∨ (regexStep search s).length < s.length := by
  unfold regexStep
  split
  next a b hs =>
    obtain ⟨hab, hbl⟩ := hOK s a b hs
    rcases Nat.eq_or_lt_of_le hab with heq | hlt
    · subst heq
      rw [List.take_append_drop]
      exact pyStrip_eq_or_lt s
    · right
      refine Nat.lt_of_le_of_lt (pyStrip_length_le _) ?_
      simp only [List.length_append, List.length_take, List.length_drop]
      omega
  next => exact Or.inl rfl

theorem rfindI_neg {needle hay : List Char} (h : rfindI needle hay < 0) :
    rfindI needle hay = -1 ∧ lastOcc needle hay = none := by
  unfold rfindI at *
  split at h
  next i hi => omega
  next hn => exact ⟨rfl, hn⟩

theorem rfindI_nonneg {needle hay : List Char} (h : 0 ≤ rfindI needle hay) :
    lastOcc needle hay = some (rfindI needle hay).toNat := by
  unfold rfindI at *
  split at h
  next i hi => simpa using hi
  next => omega

theorem rfindI_ge : ∀ needle hay : List Char, -1 ≤ rfindI needle hay := by
  intro needle hay
  unfold rfindI
  split
  next i hi => omega
  next => omega

theorem copyStep_truncation_bound {needle hay : List Char} {i : Nat}
    (hn : 0 < needle.length) (h : lastOcc needle hay = some i) :
    i + needle.length ≤ hay.length :=
  occursAt_add_le hn (lastOcc_occursAt h)

theorem copyStep_eq_or_lt (s : List Char) :
    copyStep s = s ∨ (copyStep s).length < s.length := by
  simp only [copyStep]
  split
  next hgt =>
    right
    have hsp : 0 ≤ rfindI spaceCopy (pyLower s) := by
      have := rfindI_ge dotCopy (pyLower s)
      omega
    have hlo := rfindI_nonneg hsp
    have hbd := copyStep_truncation_bound (by simp [spaceCopy]) hlo
    rw [pyLower_length] at hbd
    have h7 : spaceCopy.length = 7 := rfl
    rw [h7] at hbd
    refine Nat.lt_of_le_of_lt (pyStrip_length_le _) ?_
    simp only [List.length_take]
    omega
  next hle =>
    split
    next hne =>
      right
      have hdp : 0 ≤ rfindI dotCopy (pyLower s) := by
        have := rfindI_ge dotCopy (pyLower s)
        rcases Int.lt_or_le (rfindI dotCopy (pyLower s)) 0 with hlt | hge
        · exact absurd (rfindI_neg hlt).1 hne
        · exact hge
      have hlo := rfindI_nonneg hdp
      have hbd := copyStep_truncation_bound (by simp [dotCopy]) hlo
      rw [pyLower_length] at hbd
      have h5 : dotCopy.length = 5 := rfl
      rw [h5] at hbd
      refine Nat.lt_of_le_of_lt (pyStrip_length_le _) ?_
      simp only [List.length_take]
      omega
    next => exact Or.inl rfl

theorem copyStep_length_le (s : List Char) :
    (copyStep s).length ≤ s.length := by
  rcases copyStep_eq_or_lt s with h | h
  · rw [h]
  · omega

theorem cleanBody_eq_or_lt {search : List Char → Option (Nat × Nat)}
    (hOK : SearchOK search) (detect : Bool) (s : List Char) :
    cleanBody search detect s = s ∨
      (cleanBody search detect s).length < s.length := by
  unfold cleanBody
  rcases regexStep_eq_or_lt hOK s with h1 | h1
  · rw [h1]
    cases detect with
    | false => exact Or.inl rfl
    | true => simpa using copyStep_eq_or_lt s
  · right
    cases detect with
    | false => simpa using h1
    | true =>
      simp only [if_pos]
      exact Nat.lt_of_le_of_lt (copyStep_length_le _) h1

theorem cleanLoop_of_fix {search : List Char → Option (Nat × Nat)}
    {detect : Bool} {s : List Char} (h : cleanBody search detect s = s) :
    ∀ fuel, cleanLoop search detect fuel s = s := by
  intro fuel
  cases fuel with
  | zero => rfl
  | succ n => simp [cleanLoop, h]

theorem cleanLoop_converges {search : List Char → Option (Nat × Nat)}
    (hOK : SearchOK search) (detect : Bool) :
    ∀ n s, s.length ≤ n →
      cleanBody search detect (cleanLoop search detect (n + 1) s) =
        cleanLoop search detect (n + 1) s := by
  intro n
  induction n using Nat.strong_induction_on with
  | _ n ih =>
    intro s hs
    by_cases hfix : cleanBody search detect s = s
    · rw [cleanLoop_of_fix hfix]
      exact hfix
    · rcases cleanBody_eq_or_lt hOK detect s with h | h
      · exact absurd h hfix
      · have hn : 1 ≤ n := by omega
        have hstep : cleanLoop search detect (n + 1) s =
            cleanLoop search detect n (cleanBody search detect s) := by
          simp [cleanLoop, hfix]
        rw [hstep]
        have hn1 : n = (n - 1) + 1 := by omega
        rw [hn1]
        exact ih (n - 1) (by omega) _ (by omega)

theorem cleanLoop_fuel_irrel {search : List Char → Option (Nat × Nat)}
    (hOK : SearchOK search) (detect : Bool) :
    ∀ n s, s.length ≤ n → ∀ k,
      cleanLoop search detect (n + 1 + k) s =
        cleanLoop search detect (n + 1) s := by
  intro n
  induction n using Nat.strong_induction_on with
  | _ n ih =>
    intro s hs k
    by_cases hfix : cleanBody search detect s = s
    · rw [cleanLoop_of_fix hfix, cleanLoop_of_fix hfix]
    · rcases cleanBody_eq_or_lt hOK detect s with h | h
      · exact absurd h hfix
      · have hn : 1 ≤ n := by omega
        have hstep1 : cleanLoop search detect (n + 1 + k) s =
            cleanLoop search detect (n + k) (cleanBody search detect s) := by
          have : n + 1 + k = (n + k) + 1 := by omega
          rw [this]
          simp [cleanLoop, hfix]
        have hstep2 : cleanLoop search detect (n + 1) s =
            cleanLoop search detect n (cleanBody search detect s) := by
          simp [cleanLoop, hfix]
        rw [hstep1, hstep2]
        have hrw : n + k = (n - 1) + 1 + k := by omega
        have hrw2 : n = (n - 1) + 1 := by omega
        rw [hrw]
        conv_rhs => rw [hrw2]
        exact ih (n - 1) (by omega) _ (by omega) k

/-! ### The copy-literal sub-step matches its specification -/

theorem occursAt_head {c : Char} {rest hay : List Char} {i : Nat}
    (h : occursAt (c :: rest) hay i = true) : hay[i]? = some c := by
  unfold occursAt at h
  have h2 := of_decide_eq_true h
  have h0 : ((hay.drop i).take (c :: rest).length)[0]? = some c := by rw [h2]; simp
  rw [List.getElem?_take] at h0
  simp only [List.length_cons, Nat.zero_lt_succ, if_pos] at h0
  rw [List.getElem?_drop] at h0
  simpa using h0

theorem lastOcc_both_ne {hay : List Char} {i j : Nat}
    (hdot : lastOcc dotCopy hay = some i)
    (hsp : lastOcc spaceCopy hay = some j) : i ≠ j := by
  intro hEq
  have h1 : hay[i]? = some '.' := occursAt_head (lastOcc_occursAt hdot)
  have h2 : hay[j]? = some ' ' := occursAt_head (lastOcc_occursAt hsp)
  rw [hEq, h2] at h1
  simp at h1

theorem copyStep_of_none {s : List Char}
    (hdot : lastOcc dotCopy (pyLower s) = none)
    (hsp : lastOcc spaceCopy (pyLower s) = none) : copyStep s = s := by
  simp [copyStep, rfindI, hdot, hsp]

theorem copyStep_matches_spec (stem : List Char) :
    copyStep stem = copyStepSpec stem := by
  rcases hdot : lastOcc dotCopy (pyLower stem) with _ | i <;>
    rcases hsp : lastOcc spaceCopy (pyLower stem) with _ | j <;>
      simp only [copyStep, copyStepSpec, rfindI, hdot, hsp]
  · norm_num
  · rw [if_pos (by omega), Int.toNat_natCast]
  · rw [if_neg (by omega), if_pos (by simp), Int.toNat_natCast]
  · have hne : i ≠ j := lastOcc_both_ne hdot hsp
    rcases Nat.lt_or_ge i j with hij | hij
    · rw [if_pos (by omega), if_pos hij, Int.toNat_natCast]
    · have hji : j < i := by omega
      rw [if_neg (by omega), if_pos (by simp), if_neg (by omega), Int.toNat_natCast]

/-! ### Stem/suffix recombination -/

theorem pathStem_append_pathSuffix (name : List Char) :
    pathStem name ++ pathSuffix name = name := by
  unfold pathStem pathSuffix
  rcases h : splitsAt name with _ | i
  · simp
  · exact List.take_append_drop i name

theorem cleanBody_of_no_markers {search : List Char → Option (Nat × Nat)}
    {detect : Bool} {s : List Char}
    (hre : search s = none)
    (hdot : detect = true → lastOcc dotCopy (pyLower s) = none)
    (hsp : detect = true → lastOcc spaceCopy (pyLower s) = none) :
    cleanBody search detect s = s := by
  have hr : regexStep search s = s := by
    unfold regexStep
    rw [hre]
  unfold cleanBody
  rw [hr]
  cases detect with
  | false => rfl
  | true => simpa using copyStep_of_none (hdot rfl) (hsp rfl)

/-! ### Claim theorems C5, C8, C9, C10 -/

/-- C5: for every stem, when copy-suffix detection runs, the literal
sub-step of `clean_filename` case-insensitively finds the last occurrence of
`".copy"` and the last occurrence of `" - copy"`, removes whichever occurs at
the later string index by truncating the stem there and trimming; if only one
is present that one is removed, and if neither is present the stem is left
unchanged: `copyStep` (translated from the source) coincides with
`copyStepSpec` (written from the specification text). -/
theorem copy_substep_follows_spec :
    ∀ stem : List Char, copyStep stem = copyStepSpec stem :=
  copyStep_matches_spec

/-- C8: a filename containing no duplicate markers — no match of the
configured pattern in the stem and, when copy-detection is enabled, no
`".copy"` or `" - copy"` occurrence in the (lower-cased) stem — is returned
unchanged by `clean_filename`. -/
theorem clean_filename_no_markers
    (search : List Char → Option (Nat × Nat)) (detect : Bool)
    (name : List Char)
    (hre : search (pathStem name) = none)
    (hdot : detect = true → lastOcc dotCopy (pyLower (pathStem name)) = none)
    (hsp : detect = true → lastOcc spaceCopy (pyLower (pathStem name)) = none) :
    clean_filename search detect name = name := by
  show cleanLoop search detect ((pathStem name).length + 1) (pathStem name) ++
    pathSuffix name = name
  rw [cleanLoop_of_fix (cleanBody_of_no_markers hre hdot hsp)]
  exact pathStem_append_pathSuffix name

/-- Witness for C8 at the marker-free filename `"hello.txt"` with the
default pattern and copy-detection enabled. -/
theorem clean_filename_no_markers_witness :
    defaultSearch (pathStem ("hello.txt".data)) = none ∧
      lastOcc dotCopy (pyLower (pathStem ("hello.txt".data))) = none ∧
      lastOcc spaceCopy (pyLower (pathStem ("hello.txt".data))) = none ∧
      clean_filename defaultSearch true ("hello.txt".data) = "hello.txt".data :=
  ⟨by decide, by decide, by decide,
    clean_filename_no_markers defaultSearch true ("hello.txt".data)
      (by decide) (fun _ => by decide) (fun _ => by decide)⟩

/-- C9: `clean_filename` searches only the stem and reattaches the suffix
split off at entry verbatim; hence `"file.copy"`, whose whole copy marker
lies in its suffix, is returned unchanged even with copy-detection enabled,
while `"photo.copy.jpg"` is normalized to `"photo.jpg"`. -/
theorem clean_filename_stem_only :
    (∀ (search : List Char → Option (Nat × Nat)) (detect : Bool)
        (name : List Char),
      clean_filename search detect name =
        cleanLoop search detect ((pathStem name).length + 1) (pathStem name) ++
          pathSuffix name) ∧
    clean_filename defaultSearch true ("file.copy".data) = "file.copy".data ∧
    clean_filename defaultSearch true ("photo.copy.jpg".data) =
      "photo.jpg".data :=
  ⟨fun _ _ _ => rfl, by decide, by decide⟩

/-- C10: `clean_filename` terminates for every filename, every compiled
pattern and either copy-detection flag: an iteration of the loop body either
leaves the stem unchanged (and the loop exits) or strictly decreases its
length, so the loop reaches its fixpoint within `stem.length + 1`
iterations and additional fuel never changes the result. -/
theorem clean_filename_loop_terminates
    (search : List Char → Option (Nat × Nat)) (hOK : SearchOK search)
    (detect : Bool) (stem : List Char) :
    (cleanBody search detect stem = stem ∨
      (cleanBody search detect stem).length < stem.length) ∧
    cleanBody search detect (cleanLoop search detect (stem.length + 1) stem) =
      cleanLoop search detect (stem.length + 1) stem ∧
    ∀ k, cleanLoop search detect (stem.length + 1 + k) stem =
      cleanLoop search detect (stem.length + 1) stem :=
  ⟨cleanBody_eq_or_lt hOK detect stem,
   cleanLoop_converges hOK detect stem.length stem (Nat.le_refl _),
   fun k => cleanLoop_fuel_irrel hOK detect stem.length stem (Nat.le_refl _) k⟩

/-- Witness for C10 at the default pattern, copy-detection on, and the stem
`"a (1) - copy"`. -/
theorem clean_filename_loop_terminates_witness :
    SearchOK defaultSearch ∧
    ((cleanBody defaultSearch true ("a (1) - copy".data) = "a (1) - copy".data ∨
      (cleanBody defaultSearch true ("a (1) - copy".data)).length <
        ("a (1) - copy".data).length) ∧
    cleanBody defaultSearch true
        (cleanLoop defaultSearch true (("a (1) - copy".data).length + 1)
          ("a (1) - copy".data)) =
      cleanLoop defaultSearch true (("a (1) - copy".data).length + 1)
        ("a (1) - copy".data) ∧
    ∀ k, cleanLoop defaultSearch true (("a (1) - copy".data).length + 1 + k)
        ("a (1) - copy".data) =
      cleanLoop defaultSearch true (("a (1) - copy".data).length + 1)
        ("a (1) - copy".data)) :=
  ⟨searchOK_default,
   clean_filename_loop_terminates defaultSearch searchOK_default true
     ("a (1) - copy".data)⟩

/-! ### Occurrence and match closure under appending a suffix on the right -/

theorem takeWhile_append_of_lt {p : Char → Bool} :
    ∀ {l : List Char} (t : List Char), (l.takeWhile p).length < l.length →
      (l ++ t).takeWhile p = l.takeWhile p := by
  intro l
  induction l with
  | nil => intro t h; simp at h
  | cons x xs ih =>
    intro t h
    by_cases hx : p x
    · rw [List.cons_append, List.takeWhile_cons_of_pos hx,
        List.takeWhile_cons_of_pos hx]
      have h2 : (xs.takeWhile p).length < xs.length := by
        rw [List.takeWhile_cons_of_pos hx] at h
        simp only [List.length_cons] at h
        omega
      rw [ih t h2]
    · rw [List.cons_append, List.takeWhile_cons_of_neg hx,
        List.takeWhile_cons_of_neg hx]

theorem frontMatchLen_eq_some_iff {l : List Char} {m : Nat} :
    frontMatchLen l = some m ↔
      ∃ rest, l.drop (l.takeWhile pySpace).length = '(' :: rest ∧
        0 < (rest.takeWhile pyDigit).length ∧
        rest[(rest.takeWhile pyDigit).length]? = some ')' ∧
        m = (l.takeWhile pySpace).length + 1 +
          (rest.takeWhile pyDigit).length + 1 := by
  constructor
  · intro h
    simp only [frontMatchLen] at h
    split at h
    next c rest hdrop =>
      split at h
      next hc =>
        split at h
        next hcond =>
          subst hc
          exact ⟨rest, hdrop, hcond.1, hcond.2, (Option.some.inj h).symm⟩
        next hcond => simp at h
      next hc => simp at h
    next hdrop => simp at h
  · rintro ⟨rest, hdrop, hd0, hdp, hm⟩
    simp only [frontMatchLen]
    rw [hdrop]
    simp [hd0, hdp, hm]

theorem frontMatchLen_append {l t : List Char} {m : Nat}
    (h : frontMatchLen l = some m) : frontMatchLen (l ++ t) = some m := by
  obtain ⟨rest, hdrop, hd0, hdp, hm⟩ := frontMatchLen_eq_some_iff.1 h
  have hwsl : (l.takeWhile pySpace).length < l.length := by
    have h2 := congrArg List.length hdrop
    simp only [List.length_drop, List.length_cons] at h2
    omega
  have htw : (l ++ t).takeWhile pySpace = l.takeWhile pySpace :=
    takeWhile_append_of_lt t hwsl
  have hdlt : (rest.takeWhile pyDigit).length < rest.length :=
    (List.getElem?_eq_some_iff.1 hdp).1
  have htwd : (rest ++ t).takeWhile pyDigit = rest.takeWhile pyDigit :=
    takeWhile_append_of_lt t hdlt
  refine frontMatchLen_eq_some_iff.2 ⟨rest ++ t, ?_, ?_, ?_, ?_⟩
  · rw [htw, List.drop_append_of_le_length (Nat.le_of_lt hwsl), hdrop]
    rfl
  · rw [htwd]; exact hd0
  · rw [htwd, List.getElem?_append_left hdlt]; exact hdp
  · rw [htw, htwd]; exact hm

theorem occursAt_append {needle l t : List Char} {i : Nat}
    (h : occursAt needle l i = true) : occursAt needle (l ++ t) i = true := by
  rcases Nat.eq_zero_or_pos needle.length with h0 | hpos
  · unfold occursAt at h ⊢
    rw [List.length_eq_zero.1 h0] at h ⊢
    simp
  · have hle := occursAt_add_le hpos h
    unfold occursAt at h ⊢
    have heq := of_decide_eq_true h
    refine decide_eq_true ?_
    rw [List.drop_append_of_le_length (by omega),
      List.take_append_of_le_length (by simp; omega)]
    exact heq

/-! ### Inversion of a loop-body fixpoint (default pattern) -/

theorem defaultSearch_decomp {l : List Char} {a b : Nat}
    (h : defaultSearch l = some (a, b)) :
    frontMatchLen (l.drop a) = some (b - a) ∧ a + 3 ≤ b ∧ b ≤ l.length := by
  unfold defaultSearch at h
  obtain ⟨i, hi, hfi⟩ := List.exists_of_findSome?_eq_some h
  rcases hm : frontMatchLen (l.drop i) with _ | m <;> rw [hm] at hfi
  · simp at hfi
  · simp only [Option.map_some', Option.some.injEq, Prod.mk.injEq] at hfi
    obtain ⟨ha, hb⟩ := hfi
    have hbd := frontMatchLen_bounds hm
    have hdl : (l.drop i).length = l.length - i := by simp
    refine ⟨?_, by omega, by omega⟩
    have hfa : frontMatchLen (l.drop a) = some m := ha ▸ hm
    have hba : b - a = m := by omega
    rw [hba]
    exact hfa

theorem regexStep_fix_none {s : List Char}
    (hfix : regexStep defaultSearch s = s) : defaultSearch s = none := by
  rcases hs : defaultSearch s with _ | ⟨a, b⟩
  · rfl
  · exfalso
    obtain ⟨hfm, hab, hbl⟩ := defaultSearch_decomp hs
    have hlen : (regexStep defaultSearch s).length < s.length := by
      unfold regexStep
      rw [hs]
      refine Nat.lt_of_le_of_lt (pyStrip_length_le _) ?_
      simp only [List.length_append, List.length_take, List.length_drop]
      omega
    rw [hfix] at hlen
    omega

theorem copyStep_fix_none {s : List Char} (hfix : copyStep s = s) :
    lastOcc dotCopy (pyLower s) = none ∧
      lastOcc spaceCopy (pyLower s) = none := by
  by_contra hcon
  have hlt : (copyStep s).length < s.length := by
    simp only [copyStep]
    split
    next hgt =>
      have hsp : 0 ≤ rfindI spaceCopy (pyLower s) := by
        have := rfindI_ge dotCopy (pyLower s)
        omega
      have hlo := rfindI_nonneg hsp
      have hbd := copyStep_truncation_bound (by simp [spaceCopy]) hlo
      rw [pyLower_length] at hbd
      have h7 : spaceCopy.length = 7 := rfl
      rw [h7] at hbd
      refine Nat.lt_of_le_of_lt (pyStrip_length_le _) ?_
      simp only [List.length_take]
      omega
    next hle =>
      split
      next hne =>
        have hdp : 0 ≤ rfindI dotCopy (pyLower s) := by
          rcases Int.lt_or_le (rfindI dotCopy (pyLower s)) 0 with hlt2 | hge
          · exact absurd (rfindI_neg hlt2).1 hne
          · exact hge
        have hlo := rfindI_nonneg hdp
        have hbd := copyStep_truncation_bound (by simp [dotCopy]) hlo
        rw [pyLower_length] at hbd
        have h5 : dotCopy.length = 5 := rfl
        rw [h5] at hbd
        refine Nat.lt_of_le_of_lt (pyStrip_length_le _) ?_
        simp only [List.length_take]
        omega
      next hne2 =>
        exfalso
        push_neg at hne2
        have hdnone : lastOcc dotCopy (pyLower s) = none :=
          (rfindI_neg (by rw [hne2]; omega)).2
        have hs1 : rfindI spaceCopy (pyLower s) < 0 := by
          have hge := rfindI_ge spaceCopy (pyLower s)
          rw [hne2] at hle
          omega
        have hsnone : lastOcc spaceCopy (pyLower s) = none := (rfindI_neg hs1).2
        exact hcon ⟨hdnone, hsnone⟩
  rw [hfix] at hlt
  omega

/-! ### Shape of the pathlib split -/

theorem occursAt_singleton {c : Char} {hay : List Char} {j : Nat} :
    occursAt [c] hay j = true ↔ hay[j]? = some c := by
  constructor
  · exact occursAt_head
  · intro h
    unfold occursAt
    refine decide_eq_true ?_
    have h0 : (hay.drop j)[0]? = some c := by
      rw [List.getElem?_drop]
      simpa using h
    rcases hd : hay.drop j with _ | ⟨a, as⟩ <;> rw [hd] at h0
    · simp at h0
    · simp only [List.getElem?_cons_zero, Option.some.injEq] at h0
      subst h0
      rfl

theorem splitsAt_of_lastOcc_some {name : List Char} {k : Nat}
    (hlo : lastOcc ['.'] name = some k) :
    splitsAt name =
      if 0 < k ∧ k + 1 < name.length then some k else none := by
  unfold splitsAt lastDot
  rw [hlo]

theorem splitsAt_of_lastOcc_none {name : List Char}
    (hlo : lastOcc ['.'] name = none) : splitsAt name = none := by
  unfold splitsAt lastDot
  rw [hlo]

theorem splitsAt_spec {name : List Char} {i : Nat} (h : splitsAt name = some i) :
    0 < i ∧ i + 1 < name.length ∧ name[i]? = some '.' ∧
      ∀ j, name[j]? = some '.' → j ≤ i := by
  rcases hlo : lastOcc ['.'] name with _ | i0
  · rw [splitsAt_of_lastOcc_none hlo] at h
    cases h
  · rw [splitsAt_of_lastOcc_some hlo] at h
    by_cases hc : 0 < i0 ∧ i0 + 1 < name.length
    · rw [if_pos hc] at h
      have hi := Option.some.inj h
      subst hi
      refine ⟨hc.1, hc.2, occursAt_head (lastOcc_occursAt hlo), ?_⟩
      intro j hj
      exact lastOcc_max (by simp) hlo j (occursAt_singleton.2 hj)
    · rw [if_neg hc] at h
      cases h

theorem pathSuffix_shape {name : List Char} {i : Nat}
    (h : splitsAt name = some i) :
    ∃ ext, pathSuffix name = '.' :: ext ∧ ext ≠ [] ∧ ∀ c ∈ ext, c ≠ '.' := by
  obtain ⟨hi0, hi1, hdot, hmax⟩ := splitsAt_spec h
  obtain ⟨hilt, hgot⟩ := List.getElem?_eq_some_iff.1 hdot
  refine ⟨name.drop (i + 1), ?_, ?_, ?_⟩
  · simp only [pathSuffix, h]
    rw [List.drop_eq_getElem_cons hilt, hgot]
  · intro he
    have := congrArg List.length he
    simp only [List.length_drop, List.length_nil] at this
    omega
  · intro c hc hceq
    subst hceq
    obtain ⟨n, hn, hng⟩ := List.getElem_of_mem hc
    have hx : (name.drop (i + 1))[n]? = some '.' := by
      rw [List.getElem?_eq_getElem hn, hng]
    rw [List.getElem?_drop] at hx
    have := hmax (i + 1 + n) hx
    omega

theorem splitsAt_append {S ext : List Char} (hS : S ≠ []) (hext : ext ≠ [])
    (hdot : ∀ c ∈ ext, c ≠ '.') :
    pathStem (S ++ '.' :: ext) = S ∧
      pathSuffix (S ++ '.' :: ext) = '.' :: ext := by
  have hocc : occursAt ['.'] (S ++ '.' :: ext) S.length = true := by
    refine occursAt_singleton.2 ?_
    rw [List.getElem?_append_right (Nat.le_refl _)]
    simp
  have hmax : ∀ j, occursAt ['.'] (S ++ '.' :: ext) j = true → j ≤ S.length := by
    intro j hj
    by_contra hgt
    push_neg at hgt
    have hj2 := occursAt_singleton.1 hj
    rw [List.getElem?_append_right (by omega)] at hj2
    have hk : j - S.length = (j - S.length - 1) + 1 := by omega
    rw [hk, List.getElem?_cons_succ] at hj2
    have hmem : '.' ∈ ext := by
      obtain ⟨hlt, hg⟩ := List.getElem?_eq_some_iff.1 hj2
      rw [← hg]
      exact List.getElem_mem hlt
    exact hdot '.' hmem rfl
  have hlo : lastOcc ['.'] (S ++ '.' :: ext) = some S.length :=
    lastOcc_eq_some (by simp) hocc hmax
  have hsa : splitsAt (S ++ '.' :: ext) = some S.length := by
    rw [splitsAt_of_lastOcc_some hlo]
    rw [if_pos ?hc]
    case hc =>
      refine ⟨List.length_pos.2 hS, ?_⟩
      have : 0 < ext.length := List.length_pos.2 hext
      simp only [List.length_append, List.length_cons]
      omega
  refine ⟨?_, ?_⟩
  · simp only [pathStem, hsa]
    exact List.take_left S ('.' :: ext)
  · simp only [pathSuffix, hsa]
    exact List.drop_left S ('.' :: ext)

/-! ### Fixpoint inversion for the full body -/

theorem cleanBody_fix_parts {detect : Bool} {s : List Char}
    (hfix : cleanBody defaultSearch detect s = s) :
    regexStep defaultSearch s = s ∧ (detect = true → copyStep s = s) := by
  cases detect with
  | false =>
    unfold cleanBody at hfix
    simp only [Bool.false_eq_true, if_neg] at hfix
    exact ⟨by simpa using hfix, fun h => by cases h⟩
  | true =>
    unfold cleanBody at hfix
    simp only [if_pos] at hfix
    have h1 : (regexStep defaultSearch s).length ≤ s.length :=
      regexStep_length_le searchOK_default s
    have h2 : (copyStep (regexStep defaultSearch s)).length ≤
        (regexStep defaultSearch s).length := copyStep_length_le _
    have hlen : s.length ≤ (regexStep defaultSearch s).length := by
      have := congrArg List.length hfix
      omega
    have hreq : regexStep defaultSearch s = s := by
      rcases regexStep_eq_or_lt searchOK_default s with h | h
      · exact h
      · omega
    refine ⟨hreq, fun _ => ?_⟩
    rw [hreq] at hfix
    exact hfix

theorem cleanBody_fix_inversion {detect : Bool} {s : List Char}
    (hfix : cleanBody defaultSearch detect s = s) :
    defaultSearch s = none ∧
      (detect = true → lastOcc dotCopy (pyLower s) = none ∧
        lastOcc spaceCopy (pyLower s) = none) := by
  obtain ⟨hr, hcs⟩ := cleanBody_fix_parts hfix
  exact ⟨regexStep_fix_none hr, fun h => copyStep_fix_none (hcs h)⟩

/-! ### Marker-freeness of a fixpoint stem passes to its own stem part -/

theorem defaultSearch_stem_none {S : List Char}
    (hnone : defaultSearch S = none) :
    defaultSearch (pathStem S) = none := by
  rcases hps : defaultSearch (pathStem S) with _ | ⟨a, b⟩
  · rfl
  · exfalso
    obtain ⟨hfm, hab, hbl⟩ := defaultSearch_decomp hps
    have hSsplit : pathStem S ++ pathSuffix S = S := pathStem_append_pathSuffix S
    have haleS : a ≤ (pathStem S).length := by omega
    have hlenle : (pathStem S).length ≤ S.length := by
      have := congrArg List.length hSsplit
      simp only [List.length_append] at this
      omega
    have hdropS : S.drop a = (pathStem S).drop a ++ pathSuffix S := by
      conv_lhs => rw [← hSsplit]
      exact List.drop_append_of_le_length haleS
    have hfm2 : frontMatchLen (S.drop a) = some (b - a) := by
      rw [hdropS]
      exact frontMatchLen_append hfm
    have hn := defaultSearch_eq_none_iff.1 hnone a (by omega)
    rw [hn] at hfm2
    cases hfm2

theorem lastOcc_stem_none {needle S : List Char}
    (hnone : lastOcc needle (pyLower S) = none) :
    lastOcc needle (pyLower (pathStem S)) = none := by
  refine lastOcc_none_iff.2 ?_
  intro j hj
  by_contra hocc
  have hocc2 : occursAt needle (pyLower (pathStem S)) j = true := by
    simpa using hocc
  have hSsplit : pathStem S ++ pathSuffix S = S := pathStem_append_pathSuffix S
  have hlow : pyLower S = pyLower (pathStem S) ++ pyLower (pathSuffix S) := by
    conv_lhs => rw [← hSsplit]
    exact List.map_append Char.toLower _ _
  have hoccS : occursAt needle (pyLower S) j = true := by
    rw [hlow]
    exact occursAt_append hocc2
  have hbound : j < (pyLower S).length + 1 := by
    rw [pyLower_length] at hj ⊢
    have := congrArg List.length hSsplit
    simp only [List.length_append] at this
    omega
  have := lastOcc_none_iff.1 hnone j hbound
  rw [this] at hoccS
  cases hoccS

/-! ### Claim C2 -/

/-- C2 counterexample: as stated — for every filename — idempotence fails.
Normalizing `" - copy.copy"` with copy-detection enabled and the default
pattern yields `".copy"`; normalizing that output again yields `""`. -/
theorem clean_filename_not_idempotent :
    clean_filename defaultSearch true
        (clean_filename defaultSearch true (" - copy.copy".data)) ≠
      clean_filename defaultSearch true (" - copy.copy".data) := by decide

/-- C2 (amended): with the default pattern and either copy-detection flag,
re-normalizing the output of `clean_filename` yields that output unchanged
for every filename whose cleaned stem is nonempty or whose suffix is empty —
in particular for `"a - copy.copy.txt"` with copy-detection enabled.  (The
claim fails only when cleaning empties the stem and the reattached nonempty
suffix itself parses as a marker, as in the counterexample.) -/
theorem clean_filename_idempotent_amended (detect : Bool) (name : List Char)
    (hgood : cleanLoop defaultSearch detect ((pathStem name).length + 1)
        (pathStem name) ≠ [] ∨ pathSuffix name = []) :
    clean_filename defaultSearch detect
        (clean_filename defaultSearch detect name) =
      clean_filename defaultSearch detect name := by
  have hfixS : cleanBody defaultSearch detect
      (cleanLoop defaultSearch detect ((pathStem name).length + 1)
        (pathStem name)) =
      cleanLoop defaultSearch detect ((pathStem name).length + 1)
        (pathStem name) :=
    cleanLoop_converges searchOK_default detect (pathStem name).length
      (pathStem name) (Nat.le_refl _)
  set S := cleanLoop defaultSearch detect ((pathStem name).length + 1)
    (pathStem name) with hSdef
  obtain ⟨hsearchS, hlitS⟩ := cleanBody_fix_inversion hfixS
  have hout : clean_filename defaultSearch detect name = S ++ pathSuffix name :=
    rfl
  rw [hout]
  rcases hsfx : pathSuffix name with _ | ⟨c, ext0⟩
  · rw [List.append_nil]
    show cleanLoop defaultSearch detect ((pathStem S).length + 1)
        (pathStem S) ++ pathSuffix S = S
    have hfix2 : cleanBody defaultSearch detect (pathStem S) = pathStem S := by
      refine cleanBody_of_no_markers (defaultSearch_stem_none hsearchS) ?_ ?_
      · intro hdet
        exact lastOcc_stem_none (hlitS hdet).1
      · intro hdet
        exact lastOcc_stem_none (hlitS hdet).2
    rw [cleanLoop_of_fix hfix2]
    exact pathStem_append_pathSuffix S
  · have hSne : S ≠ [] := by
      rcases hgood with h | h
      · exact h
      · rw [h] at hsfx
        cases hsfx
    have hsome : ∃ i, splitsAt name = some i := by
      unfold pathSuffix at hsfx
      rcases h2 : splitsAt name with _ | i <;> rw [h2] at hsfx
      · cases hsfx
      · exact ⟨i, rfl⟩
    obtain ⟨i, hi⟩ := hsome
    obtain ⟨ext, hshape, hextne, hextdot⟩ := pathSuffix_shape hi
    have hcext : c :: ext0 = '.' :: ext := by
      rw [hsfx] at hshape
      exact hshape
    rw [hcext]
    obtain ⟨hstem2, hsuffix2⟩ := splitsAt_append hSne hextne hextdot
    show cleanLoop defaultSearch detect
        ((pathStem (S ++ '.' :: ext)).length + 1)
        (pathStem (S ++ '.' :: ext)) ++ pathSuffix (S ++ '.' :: ext) =
      S ++ '.' :: ext
    rw [hstem2, hsuffix2, cleanLoop_of_fix hfixS]

/-- Witness for the amended C2 at the specification instance
`"a - copy.copy.txt"` with copy-detection enabled. -/
theorem clean_filename_idempotent_amended_witness :
    (cleanLoop defaultSearch true
        ((pathStem ("a - copy.copy.txt".data)).length + 1)
        (pathStem ("a - copy.copy.txt".data)) ≠ [] ∨
      pathSuffix ("a - copy.copy.txt".data) = []) ∧
    clean_filename defaultSearch true
        (clean_filename defaultSearch true ("a - copy.copy.txt".data)) =
      clean_filename defaultSearch true ("a - copy.copy.txt".data) :=
  ⟨Or.inl (by decide),
   clean_filename_idempotent_amended true ("a - copy.copy.txt".data)
     (Or.inl (by decide))⟩

/-! ### The stable insertion sort: permutation, sortedness, stability -/

theorem insertOrdered_perm {α : Type} (r : α → α → Bool) (x : α) :
    ∀ l : List α, List.Perm (insertOrdered r x l) (x :: l) := by
  intro l
  induction l with
  | nil => exact List.Perm.refl _
  | cons y l ih =>
    unfold insertOrdered
    split
    · exact List.Perm.refl _
    · exact (List.Perm.cons y ih).trans (List.Perm.swap x y l)

theorem stableSort_perm {α : Type} (r : α → α → Bool) :
    ∀ l : List α, List.Perm (stableSort r l) l := by
  intro l
  induction l with
  | nil => exact List.Perm.refl _
  | cons x l ih =>
    exact (insertOrdered_perm r x (stableSort r l)).trans (List.Perm.cons x ih)

theorem insertOrdered_pairwise {α : Type} {r : α → α → Bool}
    (htot : ∀ a b, r a b = true ∨ r b a = true)
    (htr : ∀ a b c, r a b = true → r b c = true → r a c = true) (x : α) :
    ∀ {l : List α}, l.Pairwise (fun a b => r a b = true) →
      (insertOrdered r x l).Pairwise (fun a b => r a b = true) := by
  intro l
  induction l with
  | nil =>
    intro _
    simp [insertOrdered]
  | cons y l ih =>
    intro hp
    obtain ⟨hy, hl⟩ := List.pairwise_cons.1 hp
    unfold insertOrdered
    split
    next hr =>
      refine List.pairwise_cons.2 ⟨?_, hp⟩
      intro b hb
      rcases List.mem_cons.1 hb with rfl | hbl
      · exact hr
      · exact htr x y b hr (hy b hbl)
    next hr =>
      have hyx : r y x = true := by
        rcases htot x y with h | h
        · exact absurd h hr
        · exact h
      refine List.pairwise_cons.2 ⟨?_, ih hl⟩
      intro b hb
      have hb2 : b ∈ x :: l := (insertOrdered_perm r x l).mem_iff.1 hb
      rcases List.mem_cons.1 hb2 with rfl | hbl
      · exact hyx
      · exact hy b hbl

theorem stableSort_pairwise {α : Type} {r : α → α → Bool}
    (htot : ∀ a b, r a b = true ∨ r b a = true)
    (htr : ∀ a b c, r a b = true → r b c = true → r a c = true) :
    ∀ l : List α, (stableSort r l).Pairwise (fun a b => r a b = true) := by
  intro l
  induction l with
  | nil => simp [stableSort]
  | cons x l ih => exact insertOrdered_pairwise htot htr x ih

theorem insertOrdered_filter {α β : Type} [DecidableEq β] (κ : α → β)
    {r : α → α → Bool} (hrk : ∀ a b, r a b = false → κ a ≠ κ b)
    (x : α) (c : β) :
    ∀ l : List α,
      (insertOrdered r x l).filter (fun a => decide (κ a = c)) =
        (x :: l).filter (fun a => decide (κ a = c)) := by
  intro l
  induction l with
  | nil => rfl
  | cons y l ih =>
    unfold insertOrdered
    split
    next => rfl
    next hr =>
      have hne := hrk x y (by simpa using hr)
      rw [List.filter_cons, ih]
      by_cases hyc : κ y = c
      · have hxc : ¬ κ x = c := fun h => hne (h.trans hyc.symm)
        simp [List.filter_cons, hyc, hxc]
      · simp [List.filter_cons, hyc]

theorem stableSort_filter {α β : Type} [DecidableEq β] (κ : α → β)
    {r : α → α → Bool} (hrk : ∀ a b, r a b = false → κ a ≠ κ b) (c : β) :
    ∀ l : List α,
      (stableSort r l).filter (fun a => decide (κ a = c)) =
        l.filter (fun a => decide (κ a = c)) := by
  intro l
  induction l with
  | nil => rfl
  | cons x l ih =>
    simp only [stableSort]
    rw [insertOrdered_filter κ hrk x c (stableSort r l), List.filter_cons,
      List.filter_cons, ih]

/-! ### Bookkeeping for the insertion-ordered group dictionary -/

theorem addFile_keys (k : List Char) (f : FSFile) :
    ∀ gs : List (List Char × List FSFile),
      (addFile k f gs).map Prod.fst =
        if k ∈ gs.map Prod.fst then gs.map Prod.fst
        else gs.map Prod.fst ++ [k] := by
  intro gs
  induction gs with
  | nil => simp [addFile]
  | cons e gs ih =>
    rcases e with ⟨k1, fs1⟩
    by_cases hk : k1 = k
    · subst hk
      simp [addFile]
    · have hstep : addFile k f ((k1, fs1) :: gs) = (k1, fs1) :: addFile k f gs := by
        simp [addFile, hk]
      rw [hstep]
      simp only [List.map_cons]
      rw [ih]
      by_cases hmem : k ∈ gs.map Prod.fst
      · rw [if_pos hmem, if_pos (List.mem_cons.2 (Or.inr hmem))]
      · have hnm : ¬ k ∈ (k1, fs1).1 :: gs.map Prod.fst := by
          intro hc
          rcases List.mem_cons.1 hc with hc1 | hc2
          · exact hk hc1.symm
          · exact hmem hc2
        rw [if_neg hmem, if_neg hnm]
        rfl

theorem addFile_mem {k : List Char} {f : FSFile} :
    ∀ {gs : List (List Char × List FSFile)},
      (gs.map Prod.fst).Nodup →
      ∀ {k2 : List Char} {fs2 : List FSFile}, (k2, fs2) ∈ addFile k f gs →
      (k2 ≠ k ∧ (k2, fs2) ∈ gs) ∨
      (k2 = k ∧ ∃ fs1, (k, fs1) ∈ gs ∧ fs2 = fs1 ++ [f]) ∨
      (k2 = k ∧ k ∉ gs.map Prod.fst ∧ fs2 = [f]) := by
  intro gs
  induction gs with
  | nil =>
    intro _ k2 fs2 h
    simp only [addFile, List.mem_singleton, Prod.mk.injEq] at h
    exact Or.inr (Or.inr ⟨h.1, by simp, h.2⟩)
  | cons e gs ih =>
    rcases e with ⟨k1, fs1⟩
    intro hnd k2 fs2 h
    have hnd2 : (gs.map Prod.fst).Nodup := (List.pairwise_cons.1 hnd).2
    have hk1 : ∀ b ∈ gs.map Prod.fst, k1 ≠ b := (List.pairwise_cons.1 hnd).1
    by_cases hk : k1 = k
    · subst hk
      simp only [addFile, if_pos rfl] at h
      rcases List.mem_cons.1 h with he | hrest
      · injection he with h2 h3
        exact Or.inr (Or.inl ⟨h2, fs1, List.mem_cons.2 (Or.inl rfl), h3⟩)
      · left
        refine ⟨?_, List.mem_cons.2 (Or.inr hrest)⟩
        intro hEq
        subst hEq
        exact hk1 k2 (List.mem_map.2 ⟨(k2, fs2), hrest, rfl⟩) rfl
    · have hstep : addFile k f ((k1, fs1) :: gs) = (k1, fs1) :: addFile k f gs := by
        simp [addFile, hk]
      rw [hstep] at h
      rcases List.mem_cons.1 h with he | hrest
      · injection he with h2 h3
        subst h2
        subst h3
        exact Or.inl ⟨hk, List.mem_cons.2 (Or.inl rfl)⟩
      · rcases ih hnd2 hrest with ⟨hne, hm⟩ | ⟨hEq, fs3, hm, hfs⟩ | ⟨hEq, hnm, hfs⟩
        · exact Or.inl ⟨hne, List.mem_cons.2 (Or.inr hm)⟩
        · exact Or.inr (Or.inl ⟨hEq, fs3, List.mem_cons.2 (Or.inr hm), hfs⟩)
        · refine Or.inr (Or.inr ⟨hEq, ?_, hfs⟩)
          intro hc
          rcases List.mem_cons.1 hc with hc1 | hc2
          · exact hk hc1.symm
          · exact hnm hc2

theorem addFile_sound (s : List Char → Option (Nat × Nat)) (d : Bool)
    (f : FSFile) {gs : List (List Char × List FSFile)} {P : List FSFile}
    (hnd : (gs.map Prod.fst).Nodup)
    (hchar : ∀ k2 fs2, (k2, fs2) ∈ gs →
      fs2 = P.filter (fun g => decide (groupKey s d g = k2)) ∧ fs2 ≠ [])
    (hcompl : ∀ g ∈ P, groupKey s d g ∈ gs.map Prod.fst) :
    ((addFile (groupKey s d f) f gs).map Prod.fst).Nodup ∧
    (∀ k2 fs2, (k2, fs2) ∈ addFile (groupKey s d f) f gs →
      fs2 = (P ++ [f]).filter (fun g => decide (groupKey s d g = k2)) ∧
        fs2 ≠ []) ∧
    (∀ g ∈ P ++ [f],
      groupKey s d g ∈ (addFile (groupKey s d f) f gs).map Prod.fst) := by
  have hfilter_nil : groupKey s d f ∉ gs.map Prod.fst →
      P.filter (fun g => decide (groupKey s d g = groupKey s d f)) = [] := by
    intro hnm
    refine List.filter_eq_nil_iff.2 ?_
    intro g hg hkey
    exact hnm (of_decide_eq_true hkey ▸ hcompl g hg)
  refine ⟨?_, ?_, ?_⟩
  · rw [addFile_keys]
    by_cases hmem : groupKey s d f ∈ gs.map Prod.fst
    · rw [if_pos hmem]
      exact hnd
    · rw [if_neg hmem]
      simp [List.nodup_append, hnd, hmem]
  · intro k2 fs2 h
    rcases addFile_mem hnd h with ⟨hne, hm⟩ | ⟨hEq, fs1, hm, hfs⟩ |
        ⟨hEq, hnm, hfs⟩
    · obtain ⟨hc, hne2⟩ := hchar k2 fs2 hm
      refine ⟨?_, hne2⟩
      rw [List.filter_append, hc]
      have hne3 : ¬ (groupKey s d f = k2) := fun hc2 => hne hc2.symm
      have hf1 : List.filter (fun g => decide (groupKey s d g = k2)) [f] = [] := by
        simp [List.filter_cons, hne3]
      rw [hf1, List.append_nil]
    · subst hEq
      obtain ⟨hc, _⟩ := hchar (groupKey s d f) fs1 hm
      refine ⟨?_, by simp [hfs]⟩
      rw [List.filter_append, ← hc, hfs]
      simp [List.filter_cons]
    · subst hEq
      refine ⟨?_, by simp [hfs]⟩
      rw [List.filter_append, hfilter_nil hnm, hfs]
      simp [List.filter_cons]
  · intro g hg
    rw [addFile_keys]
    rcases List.mem_append.1 hg with hgP | hgf
    · have := hcompl g hgP
      by_cases hmem : groupKey s d f ∈ gs.map Prod.fst
      · rw [if_pos hmem]
        exact this
      · rw [if_neg hmem]
        exact List.mem_append.2 (Or.inl this)
    · have hgf2 : g = f := by simpa using hgf
      subst hgf2
      by_cases hmem : groupKey s d g ∈ gs.map Prod.fst
      · rw [if_pos hmem]
        exact hmem
      · rw [if_neg hmem]
        exact List.mem_append.2 (Or.inr (by simp))

theorem buildGroups_fold (s : List Char → Option (Nat × Nat)) (d : Bool) :
    ∀ (files : List FSFile) (gs : List (List Char × List FSFile))
      (P : List FSFile),
      (gs.map Prod.fst).Nodup →
      (∀ k2 fs2, (k2, fs2) ∈ gs →
        fs2 = P.filter (fun g => decide (groupKey s d g = k2)) ∧ fs2 ≠ []) →
      (∀ g ∈ P, groupKey s d g ∈ gs.map Prod.fst) →
      (((files.foldl (fun gs f => addFile (groupKey s d f) f gs) gs).map
          Prod.fst).Nodup ∧
      (∀ k2 fs2,
        (k2, fs2) ∈ files.foldl (fun gs f => addFile (groupKey s d f) f gs) gs →
        fs2 = (P ++ files).filter (fun g => decide (groupKey s d g = k2)) ∧
          fs2 ≠ []) ∧
      (∀ g ∈ P ++ files, groupKey s d g ∈
        (files.foldl (fun gs f => addFile (groupKey s d f) f gs) gs).map
          Prod.fst)) := by
  intro files
  induction files with
  | nil =>
    intro gs P hnd hchar hcompl
    refine ⟨hnd, ?_, ?_⟩
    · rw [List.append_nil]
      exact hchar
    · rw [List.append_nil]
      exact hcompl
  | cons f files ih =>
    intro gs P hnd hchar hcompl
    obtain ⟨hnd2, hchar2, hcompl2⟩ := addFile_sound s d f hnd hchar hcompl
    have hstep := ih (addFile (groupKey s d f) f gs) (P ++ [f]) hnd2 hchar2
      hcompl2
    have hPeq : (P ++ [f]) ++ files = P ++ f :: files := by simp
    rw [hPeq] at hstep
    exact hstep

theorem buildGroups_char {s : List Char → Option (Nat × Nat)} {d : Bool}
    {files : List FSFile} {k : List Char} {fs0 : List FSFile}
    (h : (k, fs0) ∈ buildGroups s d files) :
    fs0 = files.filter (fun g => decide (groupKey s d g = k)) ∧ fs0 ≠ [] := by
  have := buildGroups_fold s d files [] [] (by simp) (by simp) (by simp)
  exact this.2.1 k fs0 h

theorem buildGroups_keys_nodup (s : List Char → Option (Nat × Nat)) (d : Bool)
    (files : List FSFile) : ((buildGroups s d files).map Prod.fst).Nodup := by
  have := buildGroups_fold s d files [] [] (by simp) (by simp) (by simp)
  exact this.1

/-! ### Facts about `statGroup` and `processGroups` -/

theorem statGroup_mem {fs : List FSFile} {p : FSFile × FileStat}
    (h : p ∈ statGroup fs) : p.1 ∈ fs ∧ p.1.stat = some p.2 := by
  unfold statGroup at h
  obtain ⟨f, hf, hmap⟩ := List.mem_filterMap.1 h
  rcases hstat : f.stat with _ | st <;> rw [hstat] at hmap
  · cases hmap
  · have := Option.some.inj hmap
    subst this
    exact ⟨hf, hstat⟩

theorem statGroup_map_fst {fs : List FSFile} (h : ∀ f ∈ fs, f.stat.isSome) :
    (statGroup fs).map Prod.fst = fs := by
  induction fs with
  | nil => rfl
  | cons f fs ih =>
    have hf := h f (by simp)
    rcases hstat : f.stat with _ | st
    · rw [hstat] at hf
      cases hf
    · have hcons : statGroup (f :: fs) = (f, st) :: statGroup fs := by
        unfold statGroup
        rw [List.filterMap_cons, hstat]
        rfl
      rw [hcons, List.map_cons, ih (fun g hg => h g (by simp [hg]))]

theorem statGroup_length {fs : List FSFile} (h : ∀ f ∈ fs, f.stat.isSome) :
    (statGroup fs).length = fs.length := by
  have := congrArg List.length (statGroup_map_fst h)
  simpa using this

theorem processGroups_mem {gs : List (List Char × List FSFile)}
    {k : List Char} {g : List FSFile} (h : (k, g) ∈ processGroups gs) :
    ∃ fs0, (k, fs0) ∈ gs ∧ 1 < fs0.length ∧ 1 < (statGroup fs0).length ∧
      g = (stableSort ctimeLe (statGroup fs0)).map Prod.fst := by
  unfold processGroups at h
  obtain ⟨kg, hkg, hfn⟩ := List.mem_filterMap.1 h
  rcases kg with ⟨k0, fs0⟩
  split at hfn
  next h1 =>
    split at hfn
    next h2 =>
      injection hfn with hpair
      injection hpair with hk hg
      subst hk
      exact ⟨fs0, hkg, h1, h2, hg.symm⟩
    next h2 => cases hfn
  next h1 => cases hfn

theorem processGroups_mem_intro {gs : List (List Char × List FSFile)}
    {k : List Char} {fs0 : List FSFile} (h : (k, fs0) ∈ gs)
    (h1 : 1 < fs0.length) (h2 : 1 < (statGroup fs0).length) :
    (k, (stableSort ctimeLe (statGroup fs0)).map Prod.fst) ∈
      processGroups gs := by
  unfold processGroups
  refine List.mem_filterMap.2 ⟨(k, fs0), h, ?_⟩
  simp [h1, h2]

theorem processGroups_keys_sublist :
    ∀ gs : List (List Char × List FSFile),
      List.Sublist ((processGroups gs).map Prod.fst) (gs.map Prod.fst) := by
  intro gs
  induction gs with
  | nil => simp [processGroups]
  | cons kg gs ih =>
    unfold processGroups at ih ⊢
    rw [List.filterMap_cons]
    rcases hF : (if kg.2.length > 1 then
        if (statGroup kg.2).length > 1 then
          some (kg.1, (stableSort ctimeLe (statGroup kg.2)).map Prod.fst)
        else none
      else none) with _ | v
    · exact List.Sublist.cons kg.1 ih
    · have hv : v.1 = kg.1 := by
        split at hF
        · split at hF
          · injection hF with h2
            rw [← h2]
          · cases hF
        · cases hF
      rw [List.map_cons, List.map_cons, ← hv]
      exact List.Sublist.cons₂ v.1 ih

/-! ### The comparator of the creation-time sort -/

theorem ctimeLe_total (a b : FSFile × FileStat) :
    ctimeLe a b = true ∨ ctimeLe b a = true := by
  unfold ctimeLe
  rcases le_total a.2.st_ctime b.2.st_ctime with h | h
  · exact Or.inl (by simpa using h)
  · exact Or.inr (by simpa using h)

theorem ctimeLe_trans (a b c : FSFile × FileStat) (h1 : ctimeLe a b = true)
    (h2 : ctimeLe b c = true) : ctimeLe a c = true := by
  unfold ctimeLe at h1 h2 ⊢
  simp only [decide_eq_true_eq] at h1 h2 ⊢
  omega

theorem ctimeLe_false_key (a b : FSFile × FileStat)
    (h : ctimeLe a b = false) : a.2.st_ctime ≠ b.2.st_ctime := by
  unfold ctimeLe at h
  intro hEq
  rw [hEq] at h
  simp at h

/-! ### Counting helpers -/

theorem countP_flatMap {α β : Type} (p : β → Bool) (h : α → List β) :
    ∀ gs : List α,
      (gs.flatMap h).countP p = (gs.map fun e => (h e).countP p).sum := by
  intro gs
  induction gs with
  | nil => rfl
  | cons e gs ih => simp [List.flatMap_cons, List.countP_append, ih]

theorem countP_sizeMap {g2 : List FSFile} (hall : ∀ f ∈ g2, f.stat.isSome)
    (q : FSFile → Bool) :
    ((g2.filterMap fun f => f.stat.map fun st => (f, st.st_size)).countP
      fun fz => q fz.1) = g2.countP q := by
  induction g2 with
  | nil => rfl
  | cons f fs ih =>
    have hf := hall f (by simp)
    rcases hstat : f.stat with _ | st
    · rw [hstat] at hf
      cases hf
    · rw [List.filterMap_cons, hstat]
      simp only [Option.map_some']
      rw [List.countP_cons, List.countP_cons,
        ih (fun g hg => hall g (by simp [hg]))]

theorem sum_single_entry {V : Type}
    (contrib : List Char × V → Nat) :
    ∀ (gs : List (List Char × V)) (k : List Char) (g : V),
      ((gs.map Prod.fst).Nodup) → (k, g) ∈ gs →
      (∀ e ∈ gs, e.1 ≠ k → contrib e = 0) →
      (gs.map contrib).sum = contrib (k, g) := by
  intro gs
  induction gs with
  | nil =>
    intro k g _ hmem _
    cases hmem
  | cons e gs ih =>
    intro k g hnd hmem hzero
    have hnd2 : (gs.map Prod.fst).Nodup := (List.pairwise_cons.1 hnd).2
    have hhead : ∀ b ∈ gs.map Prod.fst, e.1 ≠ b := (List.pairwise_cons.1 hnd).1
    rcases List.mem_cons.1 hmem with he | hrest
    · subst he
      have hrest0 : ∀ e2 ∈ gs, contrib e2 = 0 := by
        intro e2 he2
        refine hzero e2 (List.mem_cons.2 (Or.inr he2)) ?_
        intro hEq
        exact hhead e2.1 (List.mem_map.2 ⟨e2, he2, rfl⟩) hEq.symm
      have hsum0 : (gs.map contrib).sum = 0 := by
        refine List.sum_eq_zero ?_
        intro x hx
        obtain ⟨e2, he2, hc⟩ := List.mem_map.1 hx
        rw [← hc]
        exact hrest0 e2 he2
      simp [hsum0]
    · have hek : e.1 ≠ k := by
        intro hEq
        exact hhead k (List.mem_map.2 ⟨(k, g), hrest, rfl⟩) hEq
      have hce : contrib e = 0 := hzero e (List.mem_cons.2 (Or.inl rfl)) hek
      rw [List.map_cons, List.sum_cons, hce,
        ih k g hnd2 hrest fun e2 he2 hne =>
          hzero e2 (List.mem_cons.2 (Or.inr he2)) hne]
      omega


/-! ### Elements of processed groups -/

theorem group_entry_facts {search : List Char → Option (Nat × Nat)} {d : Bool}
    {files : List FSFile} {k2 : List Char} {g2 : List FSFile}
    (h : (k2, g2) ∈ processGroups (buildGroups search d files)) :
    ∀ y ∈ g2, y ∈ files ∧ groupKey search d y = k2 ∧ y.stat.isSome := by
  obtain ⟨fs0, hmem, h1, h2, hg⟩ := processGroups_mem h
  obtain ⟨hchar, _⟩ := buildGroups_char hmem
  intro y hy
  rw [hg] at hy
  obtain ⟨p, hp, hpy⟩ := List.mem_map.1 hy
  have hp2 : p ∈ statGroup fs0 :=
    ((stableSort_perm ctimeLe (statGroup fs0)).mem_iff).1 hp
  obtain ⟨hyfs, hstat⟩ := statGroup_mem hp2
  rw [hchar] at hyfs
  have hm := List.mem_filter.1 hyfs
  rw [← hpy]
  exact ⟨hm.1, of_decide_eq_true hm.2, by simp [hstat]⟩

theorem path_inj {files : List FSFile} (hnd : (files.map pathOf).Nodup)
    {x y : FSFile} (hx : x ∈ files) (hy : y ∈ files)
    (hp : pathOf x = pathOf y) : x = y :=
  List.inj_on_of_nodup_map hnd hx hy hp

theorem count_filter_of_pos {α : Type} [DecidableEq α] (p : α → Bool) (a : α)
    (l : List α) (h : p a = true) : (l.filter p).count a = l.count a := by
  induction l with
  | nil => rfl
  | cons b l ih =>
    rw [List.filter_cons]
    by_cases hb : p b = true
    · rw [if_pos hb, List.count_cons, List.count_cons, ih]
    · rw [if_neg hb, ih, List.count_cons]
      have hba : ¬ b = a := fun hEq => hb (hEq ▸ h)
      simp [hba]

theorem count_file_eq_one {files : List FSFile}
    (hnd : (files.map pathOf).Nodup) {x : FSFile} (hx : x ∈ files) :
    files.count x = 1 :=
  List.count_eq_one_of_mem (List.Nodup.of_map pathOf hnd) hx

theorem removal_count_eq (search : List Char → Option (Nat × Nat)) (d : Bool)
    (files : List FSFile) (x : FSFile) :
    (removalPaths search d files).count (pathOf x) =
      ((processGroups (buildGroups search d files)).map
        (fun e => (e.2.drop 1).countP fun y => pathOf y == pathOf x)).sum := by
  unfold removalPaths removeList
  have h1 : ∀ L : List (FSFile × Nat),
      (L.map fun fz => pathOf fz.1).count (pathOf x) =
        L.countP fun fz => pathOf fz.1 == pathOf x := by
    intro L
    simp [List.count, List.countP_map]
    rfl
  rw [h1, (stableSort_perm previewLe _).countP_eq]
  unfold rawRemoveList
  rw [countP_flatMap]
  congr 1
  refine List.map_congr_left ?_
  intro e he
  have hall : ∀ f ∈ e.2.drop 1, f.stat.isSome := by
    intro f hf
    exact (group_entry_facts he f (List.mem_of_mem_drop hf)).2.2
  exact countP_sizeMap hall fun y => pathOf y == pathOf x

theorem removal_count_of_mem_group {search : List Char → Option (Nat × Nat)}
    {d : Bool} {files : List FSFile} {k : List Char} {g : List FSFile}
    (hnd : (files.map pathOf).Nodup)
    (hgmem : (k, g) ∈ processGroups (buildGroups search d files))
    (x : FSFile) (hxg : x ∈ g) :
    (removalPaths search d files).count (pathOf x) = (g.drop 1).count x := by
  rw [removal_count_eq]
  have hknd : ((processGroups (buildGroups search d files)).map
      Prod.fst).Nodup :=
    (buildGroups_keys_nodup search d files).sublist (processGroups_keys_sublist _)
  have hfacts := group_entry_facts hgmem
  have hx_files : x ∈ files := (hfacts x hxg).1
  have hx_key : groupKey search d x = k := (hfacts x hxg).2.1
  rw [sum_single_entry _ _ k g hknd hgmem ?hzero]
  case hzero =>
    intro e he hne
    refine List.countP_eq_zero.2 ?_
    intro y hy hq
    have hyg : y ∈ e.2 := List.mem_of_mem_drop hy
    have hyfacts := group_entry_facts he y hyg
    have hpq : pathOf y = pathOf x := by simpa using hq
    have hyx : y = x := path_inj hnd hyfacts.1 hx_files hpq
    rw [hyx] at hyfacts
    exact hne (hyfacts.2.1.symm ▸ hx_key ▸ rfl)
  have hcongr : ∀ y ∈ g.drop 1,
      ((pathOf y == pathOf x) = true) ↔ ((y == x) = true) := by
    intro y hy
    constructor
    · intro hq
      have hpq : pathOf y = pathOf x := by simpa using hq
      have hyx : y = x := path_inj hnd
        (hfacts y (List.mem_of_mem_drop hy)).1 hx_files hpq
      simp [hyx]
    · intro hq
      have : y = x := by simpa using hq
      simp [this]
  rw [List.countP_congr hcongr]
  simp [List.count]

theorem count_in_group_one {search : List Char → Option (Nat × Nat)} {d : Bool}
    {files : List FSFile} {k : List Char} {fs0 : List FSFile}
    (hnd : (files.map pathOf).Nodup)
    (hmem : (k, fs0) ∈ buildGroups search d files)
    (hstat : ∀ f ∈ fs0, f.stat.isSome)
    (x : FSFile)
    (hx : x ∈ (stableSort ctimeLe (statGroup fs0)).map Prod.fst) :
    ((stableSort ctimeLe (statGroup fs0)).map Prod.fst).count x = 1 ∧
      x ∈ fs0 := by
  have hperm : List.Perm ((stableSort ctimeLe (statGroup fs0)).map Prod.fst)
      fs0 := by
    have hp := (stableSort_perm ctimeLe (statGroup fs0)).map Prod.fst
    rw [statGroup_map_fst hstat] at hp
    exact hp
  have hxfs : x ∈ fs0 := hperm.mem_iff.1 hx
  obtain ⟨hchar, _⟩ := buildGroups_char hmem
  have hmemf := hxfs
  rw [hchar] at hmemf
  have hxfiles : x ∈ files := (List.mem_filter.1 hmemf).1
  have hkey := (List.mem_filter.1 hmemf).2
  have hcount_files : files.count x = 1 := count_file_eq_one hnd hxfiles
  have hcount_fs0 : fs0.count x = 1 := by
    rw [hchar,
      count_filter_of_pos (fun g => decide (groupKey search d g = k)) x files
        hkey]
    exact hcount_files
  exact ⟨by rw [hperm.count_eq]; exact hcount_fs0, hxfs⟩

/-! ### Stability stated for an arbitrary key-class predicate -/

theorem insertOrdered_filter_q {α : Type} (q : α → Bool) {r : α → α → Bool}
    (hq : ∀ a b, r a b = false → ¬(q a = true ∧ q b = true)) (x : α) :
    ∀ l : List α, (insertOrdered r x l).filter q = (x :: l).filter q := by
  intro l
  induction l with
  | nil => rfl
  | cons y l ih =>
    unfold insertOrdered
    split
    next => rfl
    next hr =>
      have hnotboth := hq x y (by simpa using hr)
      rw [List.filter_cons, ih]
      by_cases hyq : q y = true
      · have hxq : q x = false := by
          rcases hb : q x with _ | _
          · rfl
          · exact absurd ⟨hb, hyq⟩ hnotboth
        simp [List.filter_cons, hyq, hxq]
      · simp [List.filter_cons, hyq]

theorem stableSort_filter_q {α : Type} (q : α → Bool) {r : α → α → Bool}
    (hq : ∀ a b, r a b = false → ¬(q a = true ∧ q b = true)) :
    ∀ l : List α, (stableSort r l).filter q = l.filter q := by
  intro l
  induction l with
  | nil => rfl
  | cons x l ih =>
    simp only [stableSort]
    rw [insertOrdered_filter_q q hq x (stableSort r l), List.filter_cons,
      List.filter_cons, ih]

/-! ### Claim C1 -/

/-- C1: for every group whose grouping keys are equal and whose metadata
reads all succeed, the processed group is the stable ascending
creation-time sort of the group (ties keep discovery order, expressed as:
each creation-time class filters out of the sorted group exactly as it sits
in the discovery-ordered group); the member at index 0 has minimal creation
time, is the sole survivor (its path never appears among the deletion
candidates) and every other member's path appears exactly once in the
deletion-candidate set. -/
theorem duplicate_group_survivor_selection
    (search : List Char → Option (Nat × Nat)) (detect : Bool)
    (files : List FSFile) (hnd : (files.map pathOf).Nodup)
    (k : List Char) (fs0 : List FSFile)
    (hmem : (k, fs0) ∈ buildGroups search detect files)
    (hstat : ∀ f ∈ fs0, f.stat.isSome) (hlen : 1 < fs0.length) :
    ∃ g, g = (stableSort ctimeLe (statGroup fs0)).map Prod.fst ∧
      (k, g) ∈ processGroups (buildGroups search detect files) ∧
      g.Pairwise (fun a b => ctimeD a ≤ ctimeD b) ∧
      (∀ c : Int, g.filter (fun f => decide (ctimeD f = c)) =
        fs0.filter (fun f => decide (ctimeD f = c))) ∧
      g ≠ [] ∧
      (∀ x ∈ g, ctimeD g.headI ≤ ctimeD x) ∧
      (removalPaths search detect files).count (pathOf g.headI) = 0 ∧
      (∀ x ∈ g.tail,
        (removalPaths search detect files).count (pathOf x) = 1) := by
  have hsg_len : 1 < (statGroup fs0).length := by
    rw [statGroup_length hstat]
    exact hlen
  have hintro := processGroups_mem_intro hmem hlen hsg_len
  have hmem_stat : ∀ p ∈ stableSort ctimeLe (statGroup fs0),
      p.1.stat = some p.2 := by
    intro p hp
    exact (statGroup_mem (((stableSort_perm ctimeLe _).mem_iff).1 hp)).2
  have hpw : ((stableSort ctimeLe (statGroup fs0)).map Prod.fst).Pairwise
      (fun a b => ctimeD a ≤ ctimeD b) := by
    rw [List.pairwise_map]
    refine List.Pairwise.imp_of_mem ?_
      (stableSort_pairwise ctimeLe_total ctimeLe_trans (statGroup fs0))
    intro a b ha hb hr
    have h1 := hmem_stat a ha
    have h2 := hmem_stat b hb
    unfold ctimeLe at hr
    simp only [decide_eq_true_eq] at hr
    simp [ctimeD, h1, h2]
    exact hr
  have hlg : ((stableSort ctimeLe (statGroup fs0)).map Prod.fst).length =
      fs0.length := by
    rw [List.length_map, (stableSort_perm ctimeLe (statGroup fs0)).length_eq,
      statGroup_length hstat]
  have hne : (stableSort ctimeLe (statGroup fs0)).map Prod.fst ≠ [] := by
    intro h
    rw [h] at hlg
    simp at hlg
    omega
  have hstab : ∀ c : Int,
      ((stableSort ctimeLe (statGroup fs0)).map Prod.fst).filter
          (fun f => decide (ctimeD f = c)) =
        fs0.filter (fun f => decide (ctimeD f = c)) := by
    intro c
    have hsg_stat : ∀ p ∈ statGroup fs0, p.1.stat = some p.2 :=
      fun p hp => (statGroup_mem hp).2
    rw [List.filter_map]
    have hcongr1 : (stableSort ctimeLe (statGroup fs0)).filter
        ((fun f => decide (ctimeD f = c)) ∘ Prod.fst) =
        (stableSort ctimeLe (statGroup fs0)).filter
          (fun p => decide (p.2.st_ctime = c)) := by
      refine List.filter_congr ?_
      intro p hp
      have hps := hmem_stat p hp
      simp [Function.comp, ctimeD, hps]
    have hq : ∀ a b : FSFile × FileStat, ctimeLe a b = false →
        ¬((decide (a.2.st_ctime = c) = true) ∧
          (decide (b.2.st_ctime = c) = true)) := by
      intro a b hr hboth
      have hne2 := ctimeLe_false_key a b hr
      have h1 := of_decide_eq_true hboth.1
      have h2 := of_decide_eq_true hboth.2
      exact hne2 (h1.trans h2.symm)
    have hcongr2 : (statGroup fs0).filter
        (fun p => decide (p.2.st_ctime = c)) =
        (statGroup fs0).filter
          ((fun f => decide (ctimeD f = c)) ∘ Prod.fst) := by
      refine List.filter_congr ?_
      intro p hp
      simp [Function.comp, ctimeD, hsg_stat p hp]
    rw [hcongr1,
      stableSort_filter_q (fun p : FSFile × FileStat => decide (p.2.st_ctime = c))
        hq (statGroup fs0),
      hcongr2, ← List.filter_map, statGroup_map_fst hstat]
  refine ⟨(stableSort ctimeLe (statGroup fs0)).map Prod.fst, rfl, hintro, hpw,
    hstab, hne, ?_, ?_, ?_⟩
  · rcases hg : (stableSort ctimeLe (statGroup fs0)).map Prod.fst
      with _ | ⟨h0, t⟩
    · exact absurd hg hne
    · rw [hg] at hpw
      intro x hx
      obtain ⟨hh, _⟩ := List.pairwise_cons.1 hpw
      simp only [List.headI]
      rcases List.mem_cons.1 hx with rfl | hxt
      · exact le_refl _
      · exact hh x hxt
  · rcases hg : (stableSort ctimeLe (statGroup fs0)).map Prod.fst
      with _ | ⟨h0, t⟩
    · exact absurd hg hne
    · rw [hg] at hintro
      have hh0 : h0 ∈ h0 :: t := List.mem_cons.2 (Or.inl rfl)
      simp only [List.headI]
      rw [removal_count_of_mem_group hnd hintro h0 hh0]
      have hcnt := (count_in_group_one hnd hmem hstat h0
        (by rw [hg]; exact hh0)).1
      rw [hg, List.count_cons] at hcnt
      simp only [List.drop_one, List.tail_cons]
      simp at hcnt
      exact hcnt
  · rcases hg : (stableSort ctimeLe (statGroup fs0)).map Prod.fst
      with _ | ⟨h0, t⟩
    · exact absurd hg hne
    · rw [hg] at hintro
      intro x hx
      simp only [List.tail_cons] at hx
      have hxg : x ∈ h0 :: t := List.mem_cons.2 (Or.inr hx)
      rw [removal_count_of_mem_group hnd hintro x hxg]
      have hcnt := (count_in_group_one hnd hmem hstat x
        (by rw [hg]; exact hxg)).1
      rw [hg, List.count_cons] at hcnt
      have hxt : 1 ≤ t.count x := List.one_le_count_iff.2 hx
      simp only [List.drop_one, List.tail_cons]
      by_cases hbeq : (h0 == x) = true
      · simp [hbeq] at hcnt
        omega
      · simp [hbeq] at hcnt
        omega

/-! ### Claim C4 -/

/-- C4: a group member whose metadata read fails is dropped from its group
(it never appears in any processed group), the group is re-evaluated for
size at least two after dropping, and when the drop leaves at most one
member no member of the group is marked for deletion. -/
theorem stat_failure_drops_member
    (search : List Char → Option (Nat × Nat)) (detect : Bool)
    (files : List FSFile) (hnd : (files.map pathOf).Nodup)
    (k : List Char) (fs0 : List FSFile)
    (hmem : (k, fs0) ∈ buildGroups search detect files) :
    (∀ f ∈ fs0, f.stat = none →
      ∀ k2 g, (k2, g) ∈ processGroups (buildGroups search detect files) →
        f ∉ g) ∧
    ((statGroup fs0).length ≤ 1 →
      (∀ g, (k, g) ∉ processGroups (buildGroups search detect files)) ∧
      (∀ f ∈ fs0, pathOf f ∉ removalPaths search detect files)) := by
  constructor
  · intro f hf hfnone k2 g hg hfg
    have hsome := (group_entry_facts hg f hfg).2.2
    rw [hfnone] at hsome
    cases hsome
  · intro hsg
    have hnogroup : ∀ g, (k, g) ∉
        processGroups (buildGroups search detect files) := by
      intro g hg
      obtain ⟨fs1, hmem1, h1, h2, _⟩ := processGroups_mem hg
      have hchar0 := (buildGroups_char hmem).1
      have hchar1 := (buildGroups_char hmem1).1
      have hfs : fs1 = fs0 := hchar1.trans hchar0.symm
      rw [hfs] at h2
      omega
    refine ⟨hnogroup, ?_⟩
    intro f hf hpmem
    unfold removalPaths removeList at hpmem
    obtain ⟨fz, hfz, hfzp⟩ := List.mem_map.1 hpmem
    have hfz2 : fz ∈ rawRemoveList
        (processGroups (buildGroups search detect files)) :=
      ((stableSort_perm previewLe _).mem_iff).1 hfz
    unfold rawRemoveList at hfz2
    obtain ⟨e, he, hfz3⟩ := List.mem_flatMap.1 hfz2
    obtain ⟨y, hy, hmapy⟩ := List.mem_filterMap.1 hfz3
    have hyg : y ∈ e.2 := List.mem_of_mem_drop hy
    have hyfacts := group_entry_facts he y hyg
    have hfz1 : fz.1 = y := by
      rcases hys : y.stat with _ | st <;> rw [hys] at hmapy
      · cases hmapy
      · have hz := Option.some.inj hmapy
        rw [← hz]
    have hpp : pathOf y = pathOf f := by
      rw [← hfz1]
      simpa using hfzp
    have hchar0 := (buildGroups_char hmem).1
    have hffiles : f ∈ files := by
      rw [hchar0] at hf
      exact (List.mem_filter.1 hf).1
    have hyf : y = f := path_inj hnd hyfacts.1 hffiles hpp
    have hkeyf : groupKey search detect f = k := by
      rw [hchar0] at hf
      exact of_decide_eq_true (List.mem_filter.1 hf).2
    have he1 : e.1 = k := by
      rw [← hyfacts.2.1, hyf, hkeyf]
    have hePG : (e.1, e.2) ∈
        processGroups (buildGroups search detect files) := he
    rw [he1] at hePG
    exact hnogroup e.2 hePG

/-- Witness for C4: the fixture group `d/a (1).txt`, `d/a (2).txt` in which
the second file's stat fails, leaving a singleton after the drop. -/
theorem stat_failure_drops_member_witness :
    (([wA, wBad].map pathOf).Nodup ∧
      (wKey, [wA, wBad]) ∈ buildGroups defaultSearch false [wA, wBad]) ∧
    ((∀ f ∈ [wA, wBad], f.stat = none →
      ∀ k2 g, (k2, g) ∈ processGroups (buildGroups defaultSearch false [wA, wBad]) →
        f ∉ g) ∧
    ((statGroup [wA, wBad]).length ≤ 1 →
      (∀ g, (wKey, g) ∉ processGroups (buildGroups defaultSearch false [wA, wBad])) ∧
      (∀ f ∈ [wA, wBad], pathOf f ∉ removalPaths defaultSearch false [wA, wBad]))) :=
  ⟨⟨by decide, by decide⟩,
    stat_failure_drops_member defaultSearch false [wA, wBad] (by decide)
      wKey [wA, wBad] (by decide)⟩

/-- Witness for C1: the fixture group of `d/a (1).txt` (created at 5) and
`d/a (2).txt` (created at 3); both stats succeed. -/
theorem duplicate_group_survivor_selection_witness :
    (([wA, wB].map pathOf).Nodup ∧
      (wKey, [wA, wB]) ∈ buildGroups defaultSearch false [wA, wB] ∧
      (∀ f ∈ [wA, wB], f.stat.isSome) ∧ 1 < ([wA, wB] : List FSFile).length) ∧
    (∃ g, g = (stableSort ctimeLe (statGroup [wA, wB])).map Prod.fst ∧
      (wKey, g) ∈ processGroups (buildGroups defaultSearch false [wA, wB]) ∧
      g.Pairwise (fun a b => ctimeD a ≤ ctimeD b) ∧
      (∀ c : Int, g.filter (fun f => decide (ctimeD f = c)) =
        ([wA, wB] : List FSFile).filter (fun f => decide (ctimeD f = c))) ∧
      g ≠ [] ∧
      (∀ x ∈ g, ctimeD g.headI ≤ ctimeD x) ∧
      (removalPaths defaultSearch false [wA, wB]).count (pathOf g.headI) = 0 ∧
      (∀ x ∈ g.tail,
        (removalPaths defaultSearch false [wA, wB]).count (pathOf x) = 1)) :=
  ⟨⟨by decide, by decide, by decide, by decide⟩,
    duplicate_group_survivor_selection defaultSearch false [wA, wB] (by decide)
      wKey [wA, wB] (by decide) (by decide) (by decide)⟩

/-! ### The empty-directory pass -/

theorem FSTree.recOnMem {P : FSTree → Prop}
    (h : ∀ f cs, (∀ c ∈ cs, P c) → P (FSTree.node f cs)) : ∀ t, P t := by
  have hstep : ∀ n : Nat, ∀ t : FSTree, sizeOf t ≤ n → P t := by
    intro n
    induction n with
    | zero =>
      intro t ht
      cases t with
      | node f cs => simp at ht
    | succ n ih =>
      intro t ht
      cases t with
      | node f cs =>
        refine h f cs ?_
        intro c hc
        refine ih c ?_
        have h1 := List.sizeOf_lt_of_mem hc
        have h2 : sizeOf (FSTree.node f cs) = 1 + f + sizeOf cs := by simp
        omega
  exact fun t => hstep (sizeOf t) t (Nat.le_refl _)

theorem pruneKids_fst_eq {dry : Bool} :
    ∀ cs : List FSTree, (∀ c ∈ cs, (pruneDir dry c).1 = some c) →
      (pruneKids dry cs).filterMap Prod.fst = cs := by
  intro cs
  induction cs with
  | nil =>
    intro _
    simp [pruneKids]
  | cons c cs ih =>
    intro hall
    simp only [pruneKids]
    rw [List.filterMap_cons, hall c (by simp),
      ih fun c2 hc2 => hall c2 (by simp [hc2])]

theorem pruneKids_fst_none :
    ∀ {cs : List FSTree}, (∀ c ∈ cs, (pruneDir false c).1 = none) →
      (pruneKids false cs).filterMap Prod.fst = [] := by
  intro cs
  induction cs with
  | nil =>
    intro _
    simp [pruneKids]
  | cons c cs ih =>
    intro hall
    simp only [pruneKids]
    rw [List.filterMap_cons, hall c (by simp),
      ih fun c2 hc2 => hall c2 (by simp [hc2])]

theorem pruneDir_dry_keeps : ∀ t : FSTree, (pruneDir true t).1 = some t := by
  refine FSTree.recOnMem ?_
  intro f cs ih
  simp only [pruneDir]
  rw [pruneKids_fst_eq cs ih]
  split
  next h => simp
  next h => simp

theorem pruneDir_cascade_zero {f : Nat} {cs : List FSTree} (hf : f = 0)
    (hall : ∀ c ∈ cs, (pruneDir false c).1 = none) :
    (pruneDir false (FSTree.node f cs)).1 = none := by
  subst hf
  simp only [pruneDir]
  rw [pruneKids_fst_none hall]
  simp

theorem pruneDir_chain :
    pruneDir false (FSTree.node 0 [FSTree.node 0 [FSTree.node 0 []]]) =
      (none, 3) := by
  simp [pruneDir, pruneKids]

theorem visitOrder_last (t : FSTree) : (visitOrder t).getLast? = some t := by
  cases t with
  | node f cs =>
    rw [visitOrder]
    simp

theorem clickConfirm_declines {answers : List (List Char)}
    (h : ∀ a ∈ answers, pyStrip (pyLower a) ≠ ['y'] ∧
      pyStrip (pyLower a) ≠ ['y', 'e', 's']) :
    clickConfirm answers = none ∨ clickConfirm answers = some false := by
  induction answers with
  | nil => exact Or.inl rfl
  | cons a rest ih =>
    have ha := h a (by simp)
    simp only [clickConfirm]
    rw [if_neg (by
      intro hc
      rcases hc with hc | hc
      · exact ha.1 hc
      · exact ha.2 hc)]
    split
    next => exact Or.inr rfl
    next => exact ih fun a2 ha2 => h a2 (by simp [ha2])

theorem runDupTool_dry (files : List FSFile)
    (search : List Char → Option (Nat × Nat)) (detect autoConfirm : Bool)
    (answer : Option (List Char)) :
    runDupTool files search detect true autoConfirm answer = (files, 0) := by
  simp only [runDupTool]
  split
  next => rfl
  next => simp

theorem runDupTool_decline (files : List FSFile)
    (search : List Char → Option (Nat × Nat)) (detect : Bool)
    (answer : Option (List Char))
    (h : ∀ a, answer = some a → pyLower (pyStrip a) ≠ ['y', 'e', 's']) :
    runDupTool files search detect false false answer = (files, 0) := by
  have hconf : confirmedYes answer = false := by
    rcases answer with _ | a
    · rfl
    · simp only [confirmedYes]
      by_cases hc : pyLower (pyStrip a) = ['y', 'e', 's']
      · exact absurd hc (h a rfl)
      · simp [hc]
  simp only [runDupTool]
  split
  next => rfl
  next => simp [hconf]

/-! ### Claims C3, C6, C7 -/

/-- C3: the empty-directory pruner cascades bottom-up in a single pass:
`os.walk(topdown=False)` visits every directory after all of its
descendants and the root last (`visitOrder` ends with the root), a directory
with no plain files all of whose children were removed in this same pass is
itself removed, and on the chain `a/b/c` with `c` empty all three
directories are removed in one pass. -/
theorem empty_dirs_cascade_bottom_up :
    (∀ t : FSTree, (visitOrder t).getLast? = some t) ∧
    (∀ (f : Nat) (cs : List FSTree), f = 0 →
      (∀ c ∈ cs, (pruneDir false c).1 = none) →
      (pruneDir false (FSTree.node f cs)).1 = none) ∧
    pruneDir false (FSTree.node 0 [FSTree.node 0 [FSTree.node 0 []]]) =
      (none, 3) :=
  ⟨visitOrder_last, fun _ _ hf hall => pruneDir_cascade_zero hf hall,
    pruneDir_chain⟩

/-- Witness for C3 at the directory `a` with single empty child `b`. -/
theorem empty_dirs_cascade_bottom_up_witness :
    ((0 : Nat) = 0 ∧
      (∀ c ∈ [FSTree.node 0 []], (pruneDir false c).1 = none)) ∧
    (pruneDir false (FSTree.node 0 [FSTree.node 0 []])).1 = none :=
  ⟨⟨rfl, by
      intro c hc
      rw [List.mem_singleton.1 hc]
      simp [pruneDir, pruneKids]⟩,
   empty_dirs_cascade_bottom_up.2.1 0 [FSTree.node 0 []] rfl (by
      intro c hc
      rw [List.mem_singleton.1 hc]
      simp [pruneDir, pruneKids])⟩

/-- C6: in dry-run mode neither tool mutates the filesystem: the duplicate
remover returns its input file population with zero deletions, and the
empty-directory pass leaves the tree unchanged (no directory removed or
trashed). -/
theorem dry_run_never_mutates :
    (∀ (files : List FSFile) (search : List Char → Option (Nat × Nat))
        (detect autoConfirm : Bool) (answer : Option (List Char)),
      runDupTool files search detect true autoConfirm answer = (files, 0)) ∧
    (∀ t : FSTree, (pruneDir true t).1 = some t) ∧
    (∀ (t : FSTree) (yesFlag : Bool) (answers : List (List Char)),
      (runDirCli t true yesFlag answers).1 = some t) :=
  ⟨runDupTool_dry, pruneDir_dry_keeps, fun t yesFlag answers => by
    unfold runDirCli
    simp [pruneDir_dry_keeps t]⟩

/-- C7: in live mode without auto-confirm the prompt defaults to decline,
and any answer other than an explicit yes — including end-of-input —
aborts cleanly: the duplicate remover performs zero deletions and leaves
the file population unchanged, and the empty-directory CLI leaves the tree
untouched. -/
theorem confirmation_decline_is_clean_abort :
    (∀ (files : List FSFile) (search : List Char → Option (Nat × Nat))
        (detect : Bool) (answer : Option (List Char)),
      (∀ a, answer = some a → pyLower (pyStrip a) ≠ ['y', 'e', 's']) →
      runDupTool files search detect false false answer = (files, 0)) ∧
    (∀ (t : FSTree) (answers : List (List Char)),
      (∀ a ∈ answers, pyStrip (pyLower a) ≠ ['y'] ∧
        pyStrip (pyLower a) ≠ ['y', 'e', 's']) →
      runDirCli t false false answers = (some t, 0)) := by
  refine ⟨runDupTool_decline, ?_⟩
  intro t answers h
  unfold runDirCli
  rcases clickConfirm_declines h with hcc | hcc <;> simp [hcc]

/-- Witness for C7: the duplicate tool given the answer `" No "` on the
fixture duplicates, and the directory CLI given the answers
`"maybe"`, `""` on a tree. -/
theorem confirmation_decline_is_clean_abort_witness :
    ((∀ a, (some (" No ".data) : Option (List Char)) = some a →
        pyLower (pyStrip a) ≠ ['y', 'e', 's']) ∧
      runDupTool [wA, wB] defaultSearch false false false
        (some (" No ".data)) = ([wA, wB], 0)) ∧
    ((∀ a ∈ (["maybe".data, "".data] : List (List Char)),
        pyStrip (pyLower a) ≠ ['y'] ∧
        pyStrip (pyLower a) ≠ ['y', 'e', 's']) ∧
      runDirCli (FSTree.node 1 []) false false ["maybe".data, "".data] =
        (some (FSTree.node 1 []), 0)) :=
  ⟨⟨by intro a ha; cases ha; decide,
    confirmation_decline_is_clean_abort.1 [wA, wB] defaultSearch false
      (some (" No ".data)) (by intro a ha; cases ha; decide)⟩,
   ⟨by decide,
    confirmation_decline_is_clean_abort.2 (FSTree.node 1 [])
      ["maybe".data, "".data] (by decide)⟩⟩

end DupRemoval